import Mathlib

/-!
# Verification of the arg-jobs-analytics scraper core

Shallow embedding of `src/scraper/linkedin.go`: the LinkedIn listing
paginator (`jobListings`), the detail fetcher (`jobPostings`), the fan-out
coordinator in `main`, and the two persistence sinks (`saveJobsToFile`,
`saveJobsToSQLite`).  Effects are made explicit: the HTTP upstream is an
oracle from page offset to response outcome, the channel produced by the
`jobListings` goroutine becomes the list of emitted identifiers paired with
how the goroutine ended, the SQLite transaction becomes a pure state
transformer guarded by a write-failure oracle, and the output file becomes
a byte (character) list.
-/

set_option autoImplicit false

namespace ArgJobs

/-! ## Identifier cleaning

Go: `strings.ReplaceAll(strings.ReplaceAll(id, "urn:li:fsd_jobPostingCard:(", ""), ",JOB_DETAILS)", "")`.
`replaceAllAux` performs left-to-right non-overlapping replacement on the
character list, with fuel equal to the list length (each step consumes at
least one character when the pattern is nonempty). -/

def replaceAllAux : Nat → List Char → List Char → List Char → List Char
  | 0, s, _, _ => s
  | _ + 1, [], _, _ => []
  | fuel + 1, c :: rest, pat, rep =>
    if pat ≠ [] ∧ pat.isPrefixOf (c :: rest) then
      rep ++ replaceAllAux fuel ((c :: rest).drop pat.length) pat rep
    else
      c :: replaceAllAux fuel rest pat rep

def replaceAll (s pat rep : String) : String :=
  ⟨replaceAllAux s.data.length s.data pat.data rep.data⟩

def cleanJobId (id : String) : String :=
  replaceAll (replaceAll id "urn:li:fsd_jobPostingCard:(" "") ",JOB_DETAILS)" ""

/-! ## Listing API response shape (`jobListingsResponse`) -/

structure JobCardQuery where
  prefetchJobPostingCardUrns : List String
  deriving DecidableEq, Repr

structure ListingsMetadata where
  jobCardPrefetchQueries : List JobCardQuery
  deriving DecidableEq, Repr

structure Paging where
  total : Int
  start : Int
  count : Int
  deriving DecidableEq, Repr

structure JobListingsResponse where
  metadata : ListingsMetadata
  paging : Paging
  deriving DecidableEq, Repr

/-- What one page request can come back as: the error exits of the loop body
(request construction failure, transport failure, non-200 status, JSON decode
failure) or a decoded response. -/
inductive PageOutcome where
  | reqError
  | transportError
  | badStatus (code : Int)
  | decodeError
  | ok (content : JobListingsResponse)
  deriving DecidableEq, Repr

/-- How the `jobListings` goroutine ended: loop exit with `done = true`
(normal channel close), a logged error followed by `return`, a panic from
indexing `jobCardPrefetchQueries[0]` on an empty slice, or out of fuel
(the Go loop is still running — it has no fuel bound). -/
inductive RunResult where
  | finished
  | errored (e : PageOutcome)
  | panicked
  | outOfFuel
  deriving DecidableEq, Repr

/-- The identifiers of one decoded page: the first prefetch query's URNs.
The Go code indexes `[0]` unconditionally; `pageUrns` is only meaningful
when `jobCardPrefetchQueries` is nonempty (otherwise the loop panics, which
`jobListingsLoop` models explicitly). -/
def pageUrns (r : JobListingsResponse) : List String :=
  match r.metadata.jobCardPrefetchQueries with
  | [] => []
  | q :: _ => q.prefetchJobPostingCardUrns

def pageLen (r : JobListingsResponse) : Nat :=
  (pageUrns r).length

/-- The body of the `for !done` loop in `jobListings`, from a given `start`
offset.  `upstream` maps the requested offset to the outcome of that page
request (page size is the constant 100 throughout).  Returns the identifiers
sent on the channel, in order, and how the goroutine ended. -/
def jobListingsLoop (upstream : Int → PageOutcome) : Nat → Int → List String × RunResult
  | 0, _ => ([], .outOfFuel)
  | fuel + 1, start =>
    match upstream start with
    | .ok content =>
      match content.metadata.jobCardPrefetchQueries with
      | [] => ([], .panicked)
      | q :: _ =>
        let ids := q.prefetchJobPostingCardUrns.map cleanJobId
        let start' := start + q.prefetchJobPostingCardUrns.length
        if start' ≥ content.paging.total then
          (ids, .finished)
        else
          let rest := jobListingsLoop upstream fuel start'
          (ids ++ rest.1, rest.2)
    | e => ([], .errored e)

/-- `jobListings`: run the paginator goroutine from `start = 0`. -/
def jobListings (upstream : Int → PageOutcome) (fuel : Nat) : List String × RunResult :=
  jobListingsLoop upstream fuel 0

/-- `upstream` serves the given pages along the offset chain beginning at
`start`: the request at the running offset decodes to the next page, and the
offset advances by that page's identifier count (mirroring
`start += len(...)` in the loop). -/
def Serves (upstream : Int → PageOutcome) : Int → List JobListingsResponse → Prop
  | _, [] => True
  | start, p :: ps => upstream start = .ok p ∧ Serves upstream (start + pageLen p) ps

instance servesDecidable (upstream : Int → PageOutcome) :
    (start : Int) → (ps : List JobListingsResponse) → Decidable (Serves upstream start ps)
  | _, [] => .isTrue trivial
  | start, p :: ps =>
    have : Decidable (Serves upstream (start + pageLen p) ps) := servesDecidable upstream _ ps
    inferInstanceAs (Decidable (_ ∧ _))

/-- After each of the given pages, the running offset is still strictly below
that page's reported total, i.e. the loop's `done` test fails on every one of
them. -/
def ChainBelow : Int → List JobListingsResponse → Prop
  | _, [] => True
  | start, p :: ps =>
    (start + (pageLen p : Int) < p.paging.total) ∧ ChainBelow (start + pageLen p) ps

instance chainBelowDecidable :
    (start : Int) → (ps : List JobListingsResponse) → Decidable (ChainBelow start ps)
  | _, [] => .isTrue trivial
  | start, p :: ps =>
    have : Decidable (ChainBelow (start + pageLen p) ps) := chainBelowDecidable _ ps
    inferInstanceAs (Decidable (_ ∧ _))

/-- A run that consumes the given pages and whose cumulative count then
reaches the (uniform) reported total `T` finishes normally, emitting exactly
the pages' identifiers in page order. -/
theorem jobListingsLoop_consumes (upstream : Int → PageOutcome)
    (pages : List JobListingsResponse) (T : Int) :
    ∀ (start : Int) (fuel : Nat),
    pages ≠ [] →
    Serves upstream start pages →
    (∀ p ∈ pages, p.metadata.jobCardPrefetchQueries ≠ []) →
    (∀ p ∈ pages, p.paging.total = T) →
    start + ((pages.map pageLen).sum : Int) = T →
    pages.length ≤ fuel →
    jobListingsLoop upstream fuel start =
      (((pages.map pageUrns).flatten).map cleanJobId, .finished) := by
  induction pages with
  | nil => intro start fuel hne; exact absurd rfl hne
  | cons p ps ih =>
    intro start fuel _ hserves hq htot hsum hfuel
    obtain ⟨hup, hserves'⟩ := hserves
    obtain ⟨q, qs, hqes⟩ : ∃ q qs, p.metadata.jobCardPrefetchQueries = q :: qs := by
      cases hpq : p.metadata.jobCardPrefetchQueries with
      | nil => exact absurd hpq (hq p (List.mem_cons_self p ps))
      | cons q qs => exact ⟨q, qs, rfl⟩
    cases fuel with
    | zero => simp at hfuel
    | succ f =>
      have hlenp : pageLen p = q.prefetchJobPostingCardUrns.length := by
        simp [pageLen, pageUrns, hqes]
      have hurnp : pageUrns p = q.prefetchJobPostingCardUrns := by
        simp [pageUrns, hqes]
      have htp : p.paging.total = T := htot p (List.mem_cons_self p ps)
      have hsum' : start + (pageLen p : Int) + ((ps.map pageLen).sum : Int) = T := by
        simp only [List.map_cons, List.sum_cons] at hsum
        push_cast at hsum ⊢
        linarith
      simp only [jobListingsLoop, hup, hqes]
      by_cases hdone : start + (q.prefetchJobPostingCardUrns.length : Int) ≥ p.paging.total
      · -- the total is reached on this page: the remaining pages are all empty
        have hps0 : ((ps.map pageLen).sum : Int) ≤ 0 := by
          rw [htp] at hdone; rw [← hlenp] at hdone; linarith
        have hps0' : (ps.map pageLen).sum = 0 := by
          have : (0 : Int) ≤ ((ps.map pageLen).sum : Int) := Int.ofNat_nonneg _
          omega
        have hallnil : ∀ r ∈ ps, pageUrns r = [] := by
          intro r hr
          have : pageLen r = 0 :=
            List.sum_eq_zero_iff.mp hps0' _ (List.mem_map_of_mem pageLen hr)
          simpa [pageLen, List.length_eq_zero] using this
        have hjoin : ((ps.map pageUrns).flatten) = [] := by
          rw [List.flatten_eq_nil_iff]
          intro l hl
          obtain ⟨r, hr, rfl⟩ := List.mem_map.mp hl
          exact hallnil r hr
        simp [hdone, List.map_cons, List.flatten_cons, hjoin, hurnp]
      · -- not done yet: the loop recurses on the remaining pages
        have hpsne : ps ≠ [] := by
          rintro rfl
          simp only [List.map_nil, List.sum_nil, Nat.cast_zero, add_zero] at hsum'
          rw [htp, ← hlenp] at hdone
          omega
        have hrec := ih (start + (q.prefetchJobPostingCardUrns.length : Int)) f hpsne
          (by rw [← hlenp]; exact hserves')
          (fun r hr => hq r (List.mem_cons_of_mem p hr))
          (fun r hr => htot r (List.mem_cons_of_mem p hr))
          (by rw [← hlenp]; exact hsum')
          (by simp only [List.length_cons] at hfuel; omega)
        simp [hdone, hrec, List.map_cons, List.flatten_cons, hurnp]

/-- A run that consumes the given pages without reaching any reported total
and then hits a request whose outcome is not a decoded page stops right
there: it emits only the identifiers gathered so far and ends with that
error. -/
theorem jobListingsLoop_error (upstream : Int → PageOutcome)
    (pages : List JobListingsResponse) :
    ∀ (start : Int) (fuel : Nat),
    Serves upstream start pages →
    (∀ p ∈ pages, p.metadata.jobCardPrefetchQueries ≠ []) →
    ChainBelow start pages →
    (∀ c, upstream (start + ((pages.map pageLen).sum : Int)) ≠ .ok c) →
    pages.length + 1 ≤ fuel →
    jobListingsLoop upstream fuel start =
      (((pages.map pageUrns).flatten).map cleanJobId,
        .errored (upstream (start + ((pages.map pageLen).sum : Int)))) := by
  induction pages with
  | nil =>
    intro start fuel _ _ _ herr hfuel
    cases fuel with
    | zero => simp at hfuel
    | succ f =>
      simp only [List.map_nil, List.sum_nil, Nat.cast_zero, add_zero] at herr ⊢
      cases hu : upstream start with
      | ok c => exact absurd hu (herr c)
      | reqError => simp [jobListingsLoop, hu]
      | transportError => simp [jobListingsLoop, hu]
      | badStatus code => simp [jobListingsLoop, hu]
      | decodeError => simp [jobListingsLoop, hu]
  | cons p ps ih =>
    intro start fuel hserves hq hchain herr hfuel
    obtain ⟨hup, hserves'⟩ := hserves
    obtain ⟨hbelow, hchain'⟩ := hchain
    obtain ⟨q, qs, hqes⟩ : ∃ q qs, p.metadata.jobCardPrefetchQueries = q :: qs := by
      cases hpq : p.metadata.jobCardPrefetchQueries with
      | nil => exact absurd hpq (hq p (List.mem_cons_self p ps))
      | cons q qs => exact ⟨q, qs, rfl⟩
    cases fuel with
    | zero => simp at hfuel
    | succ f =>
      have hlenp : pageLen p = q.prefetchJobPostingCardUrns.length := by
        simp [pageLen, pageUrns, hqes]
      have hurnp : pageUrns p = q.prefetchJobPostingCardUrns := by
        simp [pageUrns, hqes]
      have hdone : ¬ start + (q.prefetchJobPostingCardUrns.length : Int) ≥ p.paging.total := by
        rw [← hlenp]; exact not_le.mpr hbelow
      have hoff : start + (((p :: ps).map pageLen).sum : Int)
          = (start + (pageLen p : Int)) + ((ps.map pageLen).sum : Int) := by
        simp only [List.map_cons, List.sum_cons]
        push_cast
        ring
      have hrec := ih (start + (pageLen p : Int)) f hserves'
        (fun r hr => hq r (List.mem_cons_of_mem p hr)) hchain'
        (by rw [hoff] at herr; exact herr)
        (by simp only [List.length_cons] at hfuel; omega)
      rw [hlenp] at hrec
      simp only [jobListingsLoop, hup, hqes]
      rw [if_neg hdone, hoff, hlenp]
      simp [hrec, List.map_cons, List.flatten_cons, hurnp]

/-! ## Concrete upstreams used as inputs to the paginator theorems -/

/-- An upstream whose every page decodes fine and reports `total = 5` but
carries zero identifiers (one prefetch query with an empty URN list): pages
"stop arriving" while the running count is still 0 < 5. -/
def stalledUpstream : Int → PageOutcome :=
  fun _ =>
    .ok { metadata := { jobCardPrefetchQueries := [{ prefetchJobPostingCardUrns := [] }] }
          paging := { total := 5, start := 0, count := 100 } }

def w4page0 : JobListingsResponse :=
  { metadata :=
      { jobCardPrefetchQueries :=
          [{ prefetchJobPostingCardUrns :=
              ["urn:li:fsd_jobPostingCard:(11,JOB_DETAILS)",
               "urn:li:fsd_jobPostingCard:(22,JOB_DETAILS)"] }] }
    paging := { total := 3, start := 0, count := 100 } }

def w4page1 : JobListingsResponse :=
  { metadata :=
      { jobCardPrefetchQueries :=
          [{ prefetchJobPostingCardUrns := ["urn:li:fsd_jobPostingCard:(33,JOB_DETAILS)"] }] }
    paging := { total := 3, start := 0, count := 100 } }

def w4upstream : Int → PageOutcome :=
  fun s => if s = 0 then .ok w4page0 else if s = 2 then .ok w4page1 else .transportError

def w5upstream : Int → PageOutcome :=
  fun s => if s = 0 then .ok w4page0 else .decodeError

def emptyQueriesUpstream : Int → PageOutcome :=
  fun _ =>
    .ok { metadata := { jobCardPrefetchQueries := [] }
          paging := { total := 1, start := 0, count := 100 } }

def okQueriesPage : JobListingsResponse :=
  { metadata := { jobCardPrefetchQueries := [{ prefetchJobPostingCardUrns := ["a"] }] }
    paging := { total := 1, start := 0, count := 100 } }

/-- Claim C1, what the code actually does at the failing input: against an
upstream that keeps decoding pages with zero identifiers and a reported
total of 5, `jobListings` never terminates — for every fuel bound the loop
is still running, has emitted no identifiers, and has reported no error.
It re-requests offset 0 forever instead of terminating the sequence early
with an upstream-inconsistency error. -/
theorem jobListings_stalls_on_empty_page (fuel : Nat) :
    jobListings stalledUpstream fuel = ([], RunResult.outOfFuel) := by
  show jobListingsLoop stalledUpstream fuel 0 = ([], RunResult.outOfFuel)
  induction fuel with
  | zero => rfl
  | succ f ih => simpa [jobListingsLoop, stalledUpstream] using ih

/-- Claim C4: for every upstream serving a sequence of pages whose
identifier counts sum to the total reported by the first page's metadata
(reported uniformly by each page), `jobListings` finishes normally and
yields exactly the pages' identifiers — `total`-many of them, page by page
in upstream order — and is duplicate-free whenever the upstream identifiers
themselves are. -/
theorem jobListings_yields_reported_total (upstream : Int → PageOutcome)
    (pages : List JobListingsResponse) (fuel : Nat)
    (hne : pages ≠ [])
    (hserves : Serves upstream 0 pages)
    (hq : ∀ p ∈ pages, p.metadata.jobCardPrefetchQueries ≠ [])
    (htot : ∀ p ∈ pages, p.paging.total = (pages.head hne).paging.total)
    (hsum : ((pages.map pageLen).sum : Int) = (pages.head hne).paging.total)
    (hfuel : pages.length ≤ fuel) :
    jobListings upstream fuel = (((pages.map pageUrns).flatten).map cleanJobId, .finished)
    ∧ (jobListings upstream fuel).1.length = (pages.map pageLen).sum
    ∧ ((((pages.map pageUrns).flatten).map cleanJobId).Nodup →
        (jobListings upstream fuel).1.Nodup) := by
  have h := jobListingsLoop_consumes upstream pages ((pages.head hne).paging.total) 0 fuel
    hne hserves hq htot (by simpa using hsum) hfuel
  have hmain : jobListings upstream fuel
      = (((pages.map pageUrns).flatten).map cleanJobId, .finished) := h
  refine ⟨hmain, ?_, ?_⟩
  · rw [hmain]
    simp only [List.length_map, List.length_flatten, List.map_map]
    apply congrArg List.sum
    apply List.map_congr_left
    intro p _
    simp [Function.comp, pageLen]
  · intro hnd
    rw [hmain]
    exact hnd

/-- Claim C5: when, after serving some pages none of which reaches its
reported total, the upstream answers the next page request with a transport
error, a non-success status, or a decode error, `jobListings` terminates at
once: it emits only the identifiers gathered before the failure, requests
nothing further, performs no retry, and the run ends carrying that error
outcome. -/
theorem jobListings_error_terminates (upstream : Int → PageOutcome)
    (pages : List JobListingsResponse) (fuel : Nat)
    (hserves : Serves upstream 0 pages)
    (hq : ∀ p ∈ pages, p.metadata.jobCardPrefetchQueries ≠ [])
    (hchain : ChainBelow 0 pages)
    (herr : ∀ c, upstream (((pages.map pageLen).sum : Int)) ≠ .ok c)
    (hfuel : pages.length + 1 ≤ fuel) :
    jobListings upstream fuel =
      (((pages.map pageUrns).flatten).map cleanJobId,
        .errored (upstream (((pages.map pageLen).sum : Int)))) := by
  have h := jobListingsLoop_error upstream pages 0 fuel hserves hq hchain
    (by simpa using herr) hfuel
  simpa using h

/-- Claim C9: the loop reads `jobCardPrefetchQueries[0]` with no bounds
guard.  If every decoded page carries at least one prefetch query the run
never panics; a decoded page with an empty `jobCardPrefetchQueries` slice
makes the indexing panic on the very first page, so `jobListings` is total
only under that precondition. -/
theorem jobListings_first_query_indexing :
    (∀ upstream : Int → PageOutcome,
        (∀ s c, upstream s = .ok c → c.metadata.jobCardPrefetchQueries ≠ []) →
        ∀ (fuel : Nat) (start : Int),
          (jobListingsLoop upstream fuel start).2 ≠ RunResult.panicked)
    ∧ jobListings emptyQueriesUpstream 1 = ([], RunResult.panicked) := by
  constructor
  · intro upstream hok fuel
    induction fuel with
    | zero => intro start; simp [jobListingsLoop]
    | succ f ih =>
      intro start
      cases hu : upstream start with
      | ok c =>
        obtain ⟨q, qs, hqes⟩ : ∃ q qs, c.metadata.jobCardPrefetchQueries = q :: qs := by
          cases hpq : c.metadata.jobCardPrefetchQueries with
          | nil => exact absurd hpq (hok start c hu)
          | cons q qs => exact ⟨q, qs, rfl⟩
        simp only [jobListingsLoop, hu, hqes]
        split
        · simp
        · simpa using ih _
      | reqError => simp [jobListingsLoop, hu]
      | transportError => simp [jobListingsLoop, hu]
      | badStatus code => simp [jobListingsLoop, hu]
      | decodeError => simp [jobListingsLoop, hu]
  · rfl

/-- Witness for C4 at a concrete upstream: two pages with counts 2 + 1 = 3,
each reporting total 3; the run finishes with the three cleaned
identifiers in page order. -/
theorem jobListings_yields_reported_total_witness :
    jobListings w4upstream 2 = (["11", "22", "33"], .finished) := by
  have h := jobListings_yields_reported_total w4upstream [w4page0, w4page1] 2
    (by decide) (by decide) (by decide) (by decide) (by decide) (by decide)
  rw [h.1]
  decide

/-- Witness for C5 at a concrete upstream: one good page of two identifiers
below the total, then a decode failure; the run stops with those two
identifiers and the decode error. -/
theorem jobListings_error_terminates_witness :
    jobListings w5upstream 3 =
      ((([w4page0].map pageUrns).flatten).map cleanJobId,
        .errored (w5upstream ((([w4page0].map pageLen).sum : Int)))) :=
  jobListings_error_terminates w5upstream [w4page0] 3 (by decide) (by decide) (by decide)
    (fun c hc => by
      rw [(by decide : ((([w4page0].map pageLen).sum : Int)) = 2),
        (by decide : w5upstream 2 = PageOutcome.decodeError)] at hc
      exact PageOutcome.noConfusion hc)
    (by decide)

/-- Witness for C9's no-panic half at a concrete upstream every one of whose
decoded pages carries a prefetch query. -/
theorem jobListings_first_query_indexing_witness :
    (jobListingsLoop (fun _ => .ok okQueriesPage) 3 0).2 ≠ RunResult.panicked :=
  jobListings_first_query_indexing.1 (fun _ => .ok okQueriesPage)
    (fun _ c hc => by
      simp only [PageOutcome.ok.injEq] at hc
      subst hc
      decide)
    3 0

/-! ## Pipeline data model (`JobPosting`, `SearchGroup`, `JobCategoryGroup`) -/

structure JobPosting where
  jobID : String
  company : String
  description : String
  title : String
  deriving DecidableEq, Repr

structure SearchGroup where
  searchTerm : String
  jobs : List JobPosting
  deriving DecidableEq, Repr

structure JobCategoryGroup where
  category : String
  searches : List SearchGroup
  deriving DecidableEq, Repr

structure JobCategory where
  category : String
  searchTerms : List String
  deriving DecidableEq, Repr

/-- `getJobCategories` from the source. -/
def getJobCategories : List JobCategory :=
  [ { category := "Data Science"
      searchTerms := ["data scientist", "data science"] },
    { category := "Security"
      searchTerms := ["security engineer", "security analyst"] } ]

/-! ## Relational sink state (`saveJobsToSQLite`)

Row order models SQLite insertion order.  `categories` and `searches` hold
the unique names in insertion order; the AUTOINCREMENT id of a name is its
1-based position.  `searchesJobs` maps `(search_id, job_id)` to
`(first_seen, last_seen)`. -/

structure JobRow where
  company : String
  description : String
  title : String
  deriving DecidableEq, Repr

structure SqliteDB where
  jobs : List (String × JobRow)
  categories : List String
  jobsCategories : List (String × Nat)
  searches : List String
  searchesJobs : List ((Nat × String) × String × String)
  deriving DecidableEq, Repr

def emptyDB : SqliteDB :=
  { jobs := [], categories := [], jobsCategories := [], searches := [], searchesJobs := [] }

/-- First value stored under key `k`. -/
def lookupRow {α β : Type} [DecidableEq α] : List (α × β) → α → Option β
  | [], _ => none
  | (k', v) :: rest, k => if k' = k then some v else lookupRow rest k

/-- `UPDATE ... WHERE key = k`: replace the value at `k`, leaving keys in
place. -/
def setRow {α β : Type} [DecidableEq α] (l : List (α × β)) (k : α) (v : β) : List (α × β) :=
  l.map (fun p => if p.1 = k then (k, v) else p)

/-- 1-based position of a name, i.e. its AUTOINCREMENT id. -/
def idOf? : List String → String → Option Nat
  | [], _ => none
  | x :: xs, n => if x = n then some 1 else (idOf? xs n).map (· + 1)

/-- `INSERT ... ON CONFLICT(name) DO UPDATE SET name=name RETURNING id`:
resolve an existing name to its id, otherwise append the name and return the
fresh id. -/
def upsertName (l : List String) (n : String) : List String × Nat :=
  match idOf? l n with
  | some i => (l, i)
  | none => (l ++ [n], l.length + 1)

/-- `INSERT OR IGNORE INTO jobs ...`: a job row already present is never
overwritten. -/
def insertJobOrIgnore (db : SqliteDB) (job : JobPosting) : SqliteDB :=
  match lookupRow db.jobs job.jobID with
  | some _ => db
  | none =>
    { db with jobs := db.jobs ++ [(job.jobID, ⟨job.company, job.description, job.title⟩)] }

/-- `INSERT OR IGNORE INTO jobs_categories ...`. -/
def insertJobCategoryOrIgnore (db : SqliteDB) (jid : String) (cid : Nat) : SqliteDB :=
  if (jid, cid) ∈ db.jobsCategories then db
  else { db with jobsCategories := db.jobsCategories ++ [(jid, cid)] }

/-- `INSERT INTO searches_jobs ... ON CONFLICT(search_id, job_id) DO UPDATE
SET last_seen = ?`: a fresh association gets `(ts, ts)`; an existing one
keeps its `first_seen` and moves `last_seen` to `ts`. -/
def upsertSearchJob (db : SqliteDB) (sid : Nat) (jid ts : String) : SqliteDB :=
  match lookupRow db.searchesJobs (sid, jid) with
  | some (firstSeen, _) =>
    { db with searchesJobs := setRow db.searchesJobs (sid, jid) (firstSeen, ts) }
  | none =>
    { db with searchesJobs := db.searchesJobs ++ [((sid, jid), (ts, ts))] }

/-- The three writes of the inner `for _, job := range searchGroup.Jobs`
loop. -/
def saveJob (ts : String) (cid sid : Nat) (job : JobPosting) (db : SqliteDB) : SqliteDB :=
  upsertSearchJob (insertJobCategoryOrIgnore (insertJobOrIgnore db job) job.jobID cid)
    sid job.jobID ts

def saveJobList (ts : String) (cid sid : Nat) : List JobPosting → SqliteDB → SqliteDB
  | [], db => db
  | j :: js, db => saveJobList ts cid sid js (saveJob ts cid sid j db)

/-- One `searchGroup` iteration: upsert the search term, then save its
jobs. -/
def saveSearchGroup (ts : String) (cid : Nat) (sg : SearchGroup) (db : SqliteDB) : SqliteDB :=
  let res := upsertName db.searches sg.searchTerm
  saveJobList ts cid res.2 sg.jobs { db with searches := res.1 }

def saveSearchGroupList (ts : String) (cid : Nat) : List SearchGroup → SqliteDB → SqliteDB
  | [], db => db
  | sg :: sgs, db => saveSearchGroupList ts cid sgs (saveSearchGroup ts cid sg db)

/-- One `jobGroup` iteration: upsert the category, then save its search
groups. -/
def saveCategoryGroup (ts : String) (g : JobCategoryGroup) (db : SqliteDB) : SqliteDB :=
  let res := upsertName db.categories g.category
  saveSearchGroupList ts res.2 g.searches { db with categories := res.1 }

/-- The body of `saveJobsToSQLite`'s transaction, one run at timestamp `ts`,
with every write succeeding. -/
def saveAll (ts : String) : List JobCategoryGroup → SqliteDB → SqliteDB
  | [], db => db
  | g :: gs, db => saveAll ts gs (saveCategoryGroup ts g db)

/-! ## C8: overlapping searches under one category -/

def cJobA : JobPosting := { jobID := "A", company := "cA", description := "dA", title := "tA" }

def cJobB : JobPosting := { jobID := "B", company := "cB", description := "dB", title := "tB" }

def cJobC : JobPosting := { jobID := "C", company := "cC", description := "dC", title := "tC" }

/-- Two search terms of one category discovering the overlapping identifier
sets A, B and B, C. -/
def overlapGroup : JobCategoryGroup :=
  { category := "Data Science"
    searches :=
      [ { searchTerm := "data scientist", jobs := [cJobA, cJobB] },
        { searchTerm := "data science", jobs := [cJobB, cJobC] } ] }

/-- Claim C8: persisting one run in which two search terms of one category
discovered A, B and B, C leaves exactly 3 job rows (A, B, C — record B
stored once: the category's set is a union, not a concatenation), 2 search
rows, and 4 search–job association rows (term 1 with A and B, term 2 with
B and C), each carrying the run's timestamp as both first_seen and
last_seen. -/
theorem saveJobsToSQLite_overlap_union :
    (saveAll "t1" [overlapGroup] emptyDB).jobs.map Prod.fst = ["A", "B", "C"]
    ∧ (saveAll "t1" [overlapGroup] emptyDB).jobs.length = 3
    ∧ (saveAll "t1" [overlapGroup] emptyDB).searches = ["data scientist", "data science"]
    ∧ (saveAll "t1" [overlapGroup] emptyDB).searches.length = 2
    ∧ (saveAll "t1" [overlapGroup] emptyDB).searchesJobs
        = [((1, "A"), "t1", "t1"), ((1, "B"), "t1", "t1"),
           ((2, "B"), "t1", "t1"), ((2, "C"), "t1", "t1")] := by
  decide

/-! ## Association-list and id lemmas -/

section AssocLemmas

variable {α β : Type} [DecidableEq α]

theorem lookupRow_append (l l' : List (α × β)) (k : α) :
    lookupRow (l ++ l') k =
      match lookupRow l k with
      | some v => some v
      | none => lookupRow l' k := by
  induction l with
  | nil => simp [lookupRow]
  | cons p rest ih =>
    obtain ⟨k', v⟩ := p
    by_cases h : k' = k
    · simp [lookupRow, h]
    · simp [lookupRow, h, ih]

theorem lookupRow_eq_none_iff (l : List (α × β)) (k : α) :
    lookupRow l k = none ↔ k ∉ l.map Prod.fst := by
  induction l with
  | nil => simp [lookupRow]
  | cons p rest ih =>
    obtain ⟨k', v⟩ := p
    by_cases h : k' = k
    · simp [lookupRow, h]
    · simp [lookupRow, h, ih, Ne.symm h]

theorem lookupRow_isSome_of_mem (l : List (α × β)) (k : α) (h : k ∈ l.map Prod.fst) :
    (lookupRow l k).isSome := by
  cases hl : lookupRow l k with
  | some v => rfl
  | none => exact absurd h ((lookupRow_eq_none_iff l k).mp hl)

theorem mem_of_lookupRow_eq_some (l : List (α × β)) (k : α) (v : β)
    (h : lookupRow l k = some v) : k ∈ l.map Prod.fst := by
  by_contra hmem
  rw [(lookupRow_eq_none_iff l k).mpr hmem] at h
  cases h

theorem setRow_map_fst (l : List (α × β)) (k : α) (v : β) :
    (setRow l k v).map Prod.fst = l.map Prod.fst := by
  unfold setRow
  rw [List.map_map]
  apply List.map_congr_left
  intro p _
  by_cases h : p.1 = k
  · simp [h]
  · simp [h]

theorem setRow_cons (k' : α) (v' : β) (rest : List (α × β)) (k : α) (v : β) :
    setRow ((k', v') :: rest) k v
      = (if k' = k then (k, v) else (k', v')) :: setRow rest k v := by
  simp [setRow]

theorem lookupRow_setRow_self (l : List (α × β)) (k : α) (v : β)
    (h : k ∈ l.map Prod.fst) : lookupRow (setRow l k v) k = some v := by
  induction l with
  | nil => simp at h
  | cons p rest ih =>
    obtain ⟨k', v'⟩ := p
    rw [setRow_cons]
    by_cases hk : k' = k
    · subst hk
      rw [if_pos rfl]
      simp [lookupRow]
    · rw [if_neg hk]
      simp only [List.map_cons, List.mem_cons] at h
      have hmem : k ∈ rest.map Prod.fst := by
        rcases h with h | h
        · exact absurd h.symm hk
        · exact h
      simp [lookupRow, hk, ih hmem]

theorem lookupRow_setRow_ne (l : List (α × β)) (k k' : α) (v : β) (h : k' ≠ k) :
    lookupRow (setRow l k v) k' = lookupRow l k' := by
  induction l with
  | nil => simp [setRow]
  | cons p rest ih =>
    obtain ⟨k'', v''⟩ := p
    rw [setRow_cons]
    by_cases hk : k'' = k
    · subst hk
      rw [if_pos rfl]
      simp [lookupRow, Ne.symm h, ih]
    · rw [if_neg hk]
      by_cases hk' : k'' = k'
      · subst hk'
        simp [lookupRow]
      · simp [lookupRow, hk', ih]

end AssocLemmas

theorem idOf?_append_of_isSome (l l' : List String) (n : String)
    (h : (idOf? l n).isSome) : idOf? (l ++ l') n = idOf? l n := by
  induction l with
  | nil => simp [idOf?] at h
  | cons x xs ih =>
    by_cases hx : x = n
    · simp [idOf?, hx]
    · have h' : (idOf? xs n).isSome := by simpa [idOf?, hx] using h
      simp only [List.cons_append, idOf?, hx, if_false, List.append_eq]
      rw [ih h']

theorem idOf?_isSome_iff_mem (l : List String) (n : String) :
    (idOf? l n).isSome ↔ n ∈ l := by
  induction l with
  | nil => simp [idOf?]
  | cons x xs ih =>
    by_cases hx : x = n
    · simp [idOf?, hx]
    · simp [idOf?, hx, ih, Ne.symm hx]

theorem idOf?_append_self (l : List String) (n : String) (h : idOf? l n = none) :
    idOf? (l ++ [n]) n = some (l.length + 1) := by
  induction l with
  | nil => simp [idOf?]
  | cons x xs ih =>
    by_cases hx : x = n
    · simp [idOf?, hx] at h
    · have h' : idOf? xs n = none := by simpa [idOf?, hx] using h
      simp [idOf?, hx, ih h']

theorem upsertName_fst_append (l : List String) (n : String) :
    ∃ e, (upsertName l n).1 = l ++ e := by
  unfold upsertName
  cases h : idOf? l n with
  | some i => exact ⟨[], by simp⟩
  | none => exact ⟨[n], rfl⟩

theorem upsertName_of_mem (l : List String) (n : String) (h : n ∈ l) :
    (upsertName l n).1 = l := by
  unfold upsertName
  cases hi : idOf? l n with
  | some i => rfl
  | none =>
    rw [← idOf?_isSome_iff_mem] at h
    rw [hi] at h
    cases h

theorem mem_upsertName_iff (l : List String) (n m : String) :
    m ∈ (upsertName l n).1 ↔ m ∈ l ∨ m = n := by
  unfold upsertName
  cases hi : idOf? l n with
  | some i =>
    have hn : n ∈ l := (idOf?_isSome_iff_mem l n).mp (by rw [hi]; rfl)
    constructor
    · exact fun h => Or.inl h
    · rintro (h | rfl)
      · exact h
      · exact hn
  | none => simp

theorem idOf?_upsertName (l : List String) (n : String) :
    idOf? ((upsertName l n).1) n = some ((upsertName l n).2) := by
  unfold upsertName
  cases hi : idOf? l n with
  | some i => exact hi
  | none => exact idOf?_append_self l n hi

theorem upsertName_nodup (l : List String) (n : String) (h : l.Nodup) :
    (upsertName l n).1.Nodup := by
  unfold upsertName
  cases hi : idOf? l n with
  | some i => exact h
  | none =>
    have hn : n ∉ l := by
      rw [← idOf?_isSome_iff_mem, hi]
      simp
    simp [List.nodup_append, h, hn]

/-! ## Frame and effect lemmas for the single SQL writes -/

/-- The effect of the `searches_jobs` upsert on the value at the touched
key: keep `first_seen` if present, set `last_seen` to `ts`; otherwise a
fresh `(ts, ts)` row. -/
def applyTouch (ts : String) : Option (String × String) → Option (String × String)
  | some (f, _) => some (f, ts)
  | none => some (ts, ts)

theorem applyTouch_idem (ts : String) (v : Option (String × String)) :
    applyTouch ts (applyTouch ts v) = applyTouch ts v := by
  cases v with
  | none => rfl
  | some p => cases p; rfl

@[simp] theorem insertJobOrIgnore_searches (db : SqliteDB) (j : JobPosting) :
    (insertJobOrIgnore db j).searches = db.searches := by
  unfold insertJobOrIgnore; split <;> rfl

@[simp] theorem insertJobOrIgnore_categories (db : SqliteDB) (j : JobPosting) :
    (insertJobOrIgnore db j).categories = db.categories := by
  unfold insertJobOrIgnore; split <;> rfl

@[simp] theorem insertJobOrIgnore_searchesJobs (db : SqliteDB) (j : JobPosting) :
    (insertJobOrIgnore db j).searchesJobs = db.searchesJobs := by
  unfold insertJobOrIgnore; split <;> rfl

@[simp] theorem insertJobCategoryOrIgnore_jobs (db : SqliteDB) (jid : String) (cid : Nat) :
    (insertJobCategoryOrIgnore db jid cid).jobs = db.jobs := by
  unfold insertJobCategoryOrIgnore; split <;> rfl

@[simp] theorem insertJobCategoryOrIgnore_searches (db : SqliteDB) (jid : String) (cid : Nat) :
    (insertJobCategoryOrIgnore db jid cid).searches = db.searches := by
  unfold insertJobCategoryOrIgnore; split <;> rfl

@[simp] theorem insertJobCategoryOrIgnore_categories (db : SqliteDB) (jid : String) (cid : Nat) :
    (insertJobCategoryOrIgnore db jid cid).categories = db.categories := by
  unfold insertJobCategoryOrIgnore; split <;> rfl

@[simp] theorem insertJobCategoryOrIgnore_searchesJobs (db : SqliteDB) (jid : String) (cid : Nat) :
    (insertJobCategoryOrIgnore db jid cid).searchesJobs = db.searchesJobs := by
  unfold insertJobCategoryOrIgnore; split <;> rfl

@[simp] theorem upsertSearchJob_jobs (db : SqliteDB) (sid : Nat) (jid ts : String) :
    (upsertSearchJob db sid jid ts).jobs = db.jobs := by
  unfold upsertSearchJob; split <;> rfl

@[simp] theorem upsertSearchJob_searches (db : SqliteDB) (sid : Nat) (jid ts : String) :
    (upsertSearchJob db sid jid ts).searches = db.searches := by
  unfold upsertSearchJob; split <;> rfl

@[simp] theorem upsertSearchJob_categories (db : SqliteDB) (sid : Nat) (jid ts : String) :
    (upsertSearchJob db sid jid ts).categories = db.categories := by
  unfold upsertSearchJob; split <;> rfl

theorem insertJobOrIgnore_jobs_ext (db : SqliteDB) (j : JobPosting) :
    ∃ e, (insertJobOrIgnore db j).jobs = db.jobs ++ e := by
  unfold insertJobOrIgnore
  cases lookupRow db.jobs j.jobID with
  | some v => exact ⟨[], by simp⟩
  | none => exact ⟨[(j.jobID, ⟨j.company, j.description, j.title⟩)], rfl⟩

theorem insertJobOrIgnore_jobs_of_mem (db : SqliteDB) (j : JobPosting)
    (h : j.jobID ∈ db.jobs.map Prod.fst) : (insertJobOrIgnore db j).jobs = db.jobs := by
  unfold insertJobOrIgnore
  cases hl : lookupRow db.jobs j.jobID with
  | some v => rfl
  | none => exact absurd h ((lookupRow_eq_none_iff _ _).mp hl)

theorem mem_insertJobOrIgnore_jobs (db : SqliteDB) (j : JobPosting) (k : String) :
    k ∈ (insertJobOrIgnore db j).jobs.map Prod.fst
      ↔ k ∈ db.jobs.map Prod.fst ∨ k = j.jobID := by
  unfold insertJobOrIgnore
  cases hl : lookupRow db.jobs j.jobID with
  | some v =>
    constructor
    · exact fun h => Or.inl h
    · rintro (h | rfl)
      · exact h
      · exact mem_of_lookupRow_eq_some _ _ _ hl
  | none => simp

theorem insertJobOrIgnore_jobs_nodup (db : SqliteDB) (j : JobPosting)
    (h : (db.jobs.map Prod.fst).Nodup) :
    ((insertJobOrIgnore db j).jobs.map Prod.fst).Nodup := by
  unfold insertJobOrIgnore
  cases hl : lookupRow db.jobs j.jobID with
  | some v => exact h
  | none =>
    have hmem : j.jobID ∉ db.jobs.map Prod.fst := (lookupRow_eq_none_iff _ _).mp hl
    simp [List.nodup_append, h, hmem]

theorem upsertSearchJob_lookup (db : SqliteDB) (sid : Nat) (jid ts : String)
    (k : Nat × String) :
    lookupRow (upsertSearchJob db sid jid ts).searchesJobs k
      = if k = (sid, jid) then applyTouch ts (lookupRow db.searchesJobs k)
        else lookupRow db.searchesJobs k := by
  cases hl : lookupRow db.searchesJobs (sid, jid) with
  | some p =>
    obtain ⟨f, lastv⟩ := p
    simp only [upsertSearchJob, hl]
    by_cases hk : k = (sid, jid)
    · subst hk
      rw [if_pos rfl, lookupRow_setRow_self _ _ _ (mem_of_lookupRow_eq_some _ _ _ hl), hl]
      rfl
    · rw [if_neg hk, lookupRow_setRow_ne _ _ _ _ hk]
  | none =>
    simp only [upsertSearchJob, hl]
    by_cases hk : k = (sid, jid)
    · subst hk
      rw [if_pos rfl, lookupRow_append, hl]
      simp [lookupRow, applyTouch]
    · rw [if_neg hk, lookupRow_append]
      cases hv : lookupRow db.searchesJobs k with
      | some v => rfl
      | none => simp [lookupRow, Ne.symm hk]

theorem upsertSearchJob_keys_ext (db : SqliteDB) (sid : Nat) (jid ts : String) :
    ∃ e, (upsertSearchJob db sid jid ts).searchesJobs.map Prod.fst
      = db.searchesJobs.map Prod.fst ++ e := by
  unfold upsertSearchJob
  cases hl : lookupRow db.searchesJobs (sid, jid) with
  | some p =>
    obtain ⟨f, lastv⟩ := p
    exact ⟨[], by simp [setRow_map_fst]⟩
  | none => exact ⟨[(sid, jid)], by simp⟩

theorem upsertSearchJob_keys_mem (db : SqliteDB) (sid : Nat) (jid ts : String)
    (k : Nat × String) :
    k ∈ (upsertSearchJob db sid jid ts).searchesJobs.map Prod.fst
      ↔ k ∈ db.searchesJobs.map Prod.fst ∨ k = (sid, jid) := by
  unfold upsertSearchJob
  cases hl : lookupRow db.searchesJobs (sid, jid) with
  | some p =>
    obtain ⟨f, lastv⟩ := p
    simp only [setRow_map_fst]
    constructor
    · exact fun h => Or.inl h
    · rintro (h | rfl)
      · exact h
      · exact mem_of_lookupRow_eq_some _ _ _ hl
  | none => simp

theorem upsertSearchJob_keys_nodup (db : SqliteDB) (sid : Nat) (jid ts : String)
    (h : (db.searchesJobs.map Prod.fst).Nodup) :
    ((upsertSearchJob db sid jid ts).searchesJobs.map Prod.fst).Nodup := by
  unfold upsertSearchJob
  cases hl : lookupRow db.searchesJobs (sid, jid) with
  | some p =>
    obtain ⟨f, lastv⟩ := p
    simpa [setRow_map_fst] using h
  | none =>
    have hmem : (sid, jid) ∉ db.searchesJobs.map Prod.fst := (lookupRow_eq_none_iff _ _).mp hl
    simp [List.nodup_append, h, hmem]

/-! ## Effect of the inner job loop (`saveJobList`) -/

theorem saveJob_jobs (ts : String) (cid sid : Nat) (j : JobPosting) (db : SqliteDB) :
    (saveJob ts cid sid j db).jobs = (insertJobOrIgnore db j).jobs := by
  simp [saveJob]

@[simp] theorem saveJob_searches (ts : String) (cid sid : Nat) (j : JobPosting)
    (db : SqliteDB) : (saveJob ts cid sid j db).searches = db.searches := by
  simp [saveJob]

@[simp] theorem saveJob_categories (ts : String) (cid sid : Nat) (j : JobPosting)
    (db : SqliteDB) : (saveJob ts cid sid j db).categories = db.categories := by
  simp [saveJob]

theorem saveJob_sj_lookup (ts : String) (cid sid : Nat) (j : JobPosting) (db : SqliteDB)
    (k : Nat × String) :
    lookupRow (saveJob ts cid sid j db).searchesJobs k
      = if k = (sid, j.jobID) then applyTouch ts (lookupRow db.searchesJobs k)
        else lookupRow db.searchesJobs k := by
  unfold saveJob
  rw [upsertSearchJob_lookup]
  simp

theorem saveJob_sj_keys_mem (ts : String) (cid sid : Nat) (j : JobPosting) (db : SqliteDB)
    (k : Nat × String) :
    k ∈ (saveJob ts cid sid j db).searchesJobs.map Prod.fst
      ↔ k ∈ db.searchesJobs.map Prod.fst ∨ k = (sid, j.jobID) := by
  unfold saveJob
  rw [upsertSearchJob_keys_mem]
  simp

theorem saveJob_sj_keys_ext (ts : String) (cid sid : Nat) (j : JobPosting) (db : SqliteDB) :
    ∃ e, (saveJob ts cid sid j db).searchesJobs.map Prod.fst
      = db.searchesJobs.map Prod.fst ++ e := by
  unfold saveJob
  obtain ⟨e, he⟩ := upsertSearchJob_keys_ext
    (insertJobCategoryOrIgnore (insertJobOrIgnore db j) j.jobID cid) sid j.jobID ts
  exact ⟨e, by simpa using he⟩

theorem saveJob_sj_keys_nodup (ts : String) (cid sid : Nat) (j : JobPosting) (db : SqliteDB)
    (h : (db.searchesJobs.map Prod.fst).Nodup) :
    ((saveJob ts cid sid j db).searchesJobs.map Prod.fst).Nodup := by
  unfold saveJob
  apply upsertSearchJob_keys_nodup
  simpa using h

@[simp] theorem saveJobList_searches (ts : String) (cid sid : Nat) (js : List JobPosting) :
    ∀ db : SqliteDB, (saveJobList ts cid sid js db).searches = db.searches := by
  induction js with
  | nil => intro db; rfl
  | cons j js ih => intro db; simp [saveJobList, ih]

@[simp] theorem saveJobList_categories (ts : String) (cid sid : Nat) (js : List JobPosting) :
    ∀ db : SqliteDB, (saveJobList ts cid sid js db).categories = db.categories := by
  induction js with
  | nil => intro db; rfl
  | cons j js ih => intro db; simp [saveJobList, ih]

theorem saveJobList_jobs_ext (ts : String) (cid sid : Nat) (js : List JobPosting) :
    ∀ db : SqliteDB, ∃ e, (saveJobList ts cid sid js db).jobs = db.jobs ++ e := by
  induction js with
  | nil => intro db; exact ⟨[], by simp [saveJobList]⟩
  | cons j js ih =>
    intro db
    obtain ⟨e1, he1⟩ := insertJobOrIgnore_jobs_ext db j
    obtain ⟨e2, he2⟩ := ih (saveJob ts cid sid j db)
    refine ⟨e1 ++ e2, ?_⟩
    simp only [saveJobList]
    rw [he2, saveJob_jobs, he1, List.append_assoc]

theorem mem_saveJobList_jobs (ts : String) (cid sid : Nat) (js : List JobPosting) :
    ∀ (db : SqliteDB) (k : String),
    k ∈ (saveJobList ts cid sid js db).jobs.map Prod.fst
      ↔ k ∈ db.jobs.map Prod.fst ∨ k ∈ js.map JobPosting.jobID := by
  induction js with
  | nil => intro db k; simp [saveJobList]
  | cons j js ih =>
    intro db k
    simp only [saveJobList]
    rw [ih, saveJob_jobs, mem_insertJobOrIgnore_jobs]
    simp only [List.map_cons, List.mem_cons]
    tauto

theorem saveJobList_jobs_nodup (ts : String) (cid sid : Nat) (js : List JobPosting) :
    ∀ db : SqliteDB, (db.jobs.map Prod.fst).Nodup →
    ((saveJobList ts cid sid js db).jobs.map Prod.fst).Nodup := by
  induction js with
  | nil => intro db h; simpa [saveJobList] using h
  | cons j js ih =>
    intro db h
    simp only [saveJobList]
    apply ih
    rw [saveJob_jobs]
    exact insertJobOrIgnore_jobs_nodup db j h

theorem saveJobList_jobs_of_mem (ts : String) (cid sid : Nat) (js : List JobPosting) :
    ∀ db : SqliteDB, (∀ i ∈ js.map JobPosting.jobID, i ∈ db.jobs.map Prod.fst) →
    (saveJobList ts cid sid js db).jobs = db.jobs := by
  induction js with
  | nil => intro db _; rfl
  | cons j js ih =>
    intro db h
    have hj : j.jobID ∈ db.jobs.map Prod.fst := h _ (by simp)
    have hjobs : (saveJob ts cid sid j db).jobs = db.jobs := by
      rw [saveJob_jobs, insertJobOrIgnore_jobs_of_mem db j hj]
    simp only [saveJobList]
    rw [ih (saveJob ts cid sid j db)
      (by rw [hjobs]; exact fun i hi => h i (List.mem_cons_of_mem _ hi)), hjobs]

theorem saveJobList_sj_lookup (ts : String) (cid sid : Nat) (js : List JobPosting) :
    ∀ (db : SqliteDB) (k : Nat × String),
    lookupRow (saveJobList ts cid sid js db).searchesJobs k
      = if k.1 = sid ∧ k.2 ∈ js.map JobPosting.jobID
        then applyTouch ts (lookupRow db.searchesJobs k)
        else lookupRow db.searchesJobs k := by
  induction js with
  | nil => intro db k; simp [saveJobList]
  | cons j js ih =>
    intro db k
    simp only [saveJobList]
    rw [ih, saveJob_sj_lookup]
    by_cases h2 : k = (sid, j.jobID)
    · subst h2
      by_cases h1 : j.jobID ∈ js.map JobPosting.jobID
      · simp [h1, applyTouch_idem]
      · simp [h1, applyTouch_idem]
    · by_cases h1 : k.1 = sid ∧ k.2 ∈ js.map JobPosting.jobID
      · have hc : k.1 = sid ∧ k.2 ∈ (j :: js).map JobPosting.jobID :=
          ⟨h1.1, List.mem_cons_of_mem _ h1.2⟩
        simp only [if_neg h2, if_pos h1, if_pos hc]
      · have hrhs : ¬(k.1 = sid ∧ k.2 ∈ (j :: js).map JobPosting.jobID) := by
          rintro ⟨ha, hb⟩
          simp only [List.map_cons, List.mem_cons] at hb
          rcases hb with hb | hb
          · exact h2 (Prod.ext_iff.mpr ⟨ha, hb⟩)
          · exact h1 ⟨ha, hb⟩
        simp only [if_neg h2, if_neg h1, if_neg hrhs]

theorem saveJobList_sj_keys_ext (ts : String) (cid sid : Nat) (js : List JobPosting) :
    ∀ db : SqliteDB, ∃ e, (saveJobList ts cid sid js db).searchesJobs.map Prod.fst
      = db.searchesJobs.map Prod.fst ++ e := by
  induction js with
  | nil => intro db; exact ⟨[], by simp [saveJobList]⟩
  | cons j js ih =>
    intro db
    obtain ⟨e1, he1⟩ := saveJob_sj_keys_ext ts cid sid j db
    obtain ⟨e2, he2⟩ := ih (saveJob ts cid sid j db)
    refine ⟨e1 ++ e2, ?_⟩
    simp only [saveJobList]
    rw [he2, he1, List.append_assoc]

theorem mem_saveJobList_sj_keys (ts : String) (cid sid : Nat) (js : List JobPosting) :
    ∀ (db : SqliteDB) (k : Nat × String),
    k ∈ (saveJobList ts cid sid js db).searchesJobs.map Prod.fst
      ↔ k ∈ db.searchesJobs.map Prod.fst
        ∨ (k.1 = sid ∧ k.2 ∈ js.map JobPosting.jobID) := by
  induction js with
  | nil => intro db k; simp [saveJobList]
  | cons j js ih =>
    intro db k
    simp only [saveJobList]
    rw [ih, saveJob_sj_keys_mem]
    simp only [List.map_cons, List.mem_cons, Prod.ext_iff]
    tauto

theorem saveJobList_sj_keys_nodup (ts : String) (cid sid : Nat) (js : List JobPosting) :
    ∀ db : SqliteDB, (db.searchesJobs.map Prod.fst).Nodup →
    ((saveJobList ts cid sid js db).searchesJobs.map Prod.fst).Nodup := by
  induction js with
  | nil => intro db h; simpa [saveJobList] using h
  | cons j js ih =>
    intro db h
    simp only [saveJobList]
    exact ih _ (saveJob_sj_keys_nodup ts cid sid j db h)

/-! ## Effect of one search group and of a list of search groups -/

/-- Association key `k` is written by one of the given search groups, with
search ids resolved against the name table `S`: some group's term has id
`k.1` in `S` and contains a job with id `k.2`. -/
def touchesSG (S : List String) (sgs : List SearchGroup) (k : Nat × String) : Prop :=
  ∃ sg ∈ sgs, idOf? S sg.searchTerm = some k.1 ∧ k.2 ∈ sg.jobs.map JobPosting.jobID

instance touchesSGDecidable (S : List String) (sgs : List SearchGroup) (k : Nat × String) :
    Decidable (touchesSG S sgs k) :=
  inferInstanceAs (Decidable (∃ sg ∈ sgs, _ ∧ _))

/-- Association key `k` is written by one of the given category groups. -/
def touchesGroups (S : List String) (groups : List JobCategoryGroup) (k : Nat × String) : Prop :=
  ∃ g ∈ groups, touchesSG S g.searches k

instance touchesGroupsDecidable (S : List String) (groups : List JobCategoryGroup)
    (k : Nat × String) : Decidable (touchesGroups S groups k) :=
  inferInstanceAs (Decidable (∃ g ∈ groups, touchesSG S g.searches k))

theorem touchesSG_append (S e : List String) (sgs : List SearchGroup) (k : Nat × String)
    (h : ∀ sg ∈ sgs, sg.searchTerm ∈ S) :
    touchesSG (S ++ e) sgs k ↔ touchesSG S sgs k := by
  unfold touchesSG
  constructor
  · rintro ⟨x, hx, hxi, hxm⟩
    refine ⟨x, hx, ?_, hxm⟩
    rwa [idOf?_append_of_isSome _ _ _ ((idOf?_isSome_iff_mem _ _).mpr (h x hx))] at hxi
  · rintro ⟨x, hx, hxi, hxm⟩
    refine ⟨x, hx, ?_, hxm⟩
    rwa [idOf?_append_of_isSome _ _ _ ((idOf?_isSome_iff_mem _ _).mpr (h x hx))]

@[simp] theorem saveSearchGroup_searches (ts : String) (cid : Nat) (sg : SearchGroup)
    (db : SqliteDB) :
    (saveSearchGroup ts cid sg db).searches = (upsertName db.searches sg.searchTerm).1 := by
  simp [saveSearchGroup]

@[simp] theorem saveSearchGroup_categories (ts : String) (cid : Nat) (sg : SearchGroup)
    (db : SqliteDB) : (saveSearchGroup ts cid sg db).categories = db.categories := by
  simp [saveSearchGroup]

theorem saveSearchGroup_sj_lookup (ts : String) (cid : Nat) (sg : SearchGroup) (db : SqliteDB)
    (k : Nat × String) :
    lookupRow (saveSearchGroup ts cid sg db).searchesJobs k
      = if k.1 = (upsertName db.searches sg.searchTerm).2
            ∧ k.2 ∈ sg.jobs.map JobPosting.jobID
        then applyTouch ts (lookupRow db.searchesJobs k)
        else lookupRow db.searchesJobs k := by
  simp only [saveSearchGroup]
  rw [saveJobList_sj_lookup]

theorem saveSearchGroup_sj_keys_mem (ts : String) (cid : Nat) (sg : SearchGroup) (db : SqliteDB)
    (k : Nat × String) :
    k ∈ (saveSearchGroup ts cid sg db).searchesJobs.map Prod.fst
      ↔ k ∈ db.searchesJobs.map Prod.fst
        ∨ (k.1 = (upsertName db.searches sg.searchTerm).2
            ∧ k.2 ∈ sg.jobs.map JobPosting.jobID) := by
  simp only [saveSearchGroup]
  rw [mem_saveJobList_sj_keys]

theorem saveSearchGroup_sj_keys_ext (ts : String) (cid : Nat) (sg : SearchGroup)
    (db : SqliteDB) :
    ∃ e, (saveSearchGroup ts cid sg db).searchesJobs.map Prod.fst
      = db.searchesJobs.map Prod.fst ++ e := by
  simp only [saveSearchGroup]
  exact saveJobList_sj_keys_ext ts cid _ sg.jobs _

theorem saveSearchGroup_sj_keys_nodup (ts : String) (cid : Nat) (sg : SearchGroup)
    (db : SqliteDB) (h : (db.searchesJobs.map Prod.fst).Nodup) :
    ((saveSearchGroup ts cid sg db).searchesJobs.map Prod.fst).Nodup := by
  simp only [saveSearchGroup]
  exact saveJobList_sj_keys_nodup ts cid _ sg.jobs _ h

theorem saveSearchGroup_jobs_ext (ts : String) (cid : Nat) (sg : SearchGroup) (db : SqliteDB) :
    ∃ e, (saveSearchGroup ts cid sg db).jobs = db.jobs ++ e := by
  simp only [saveSearchGroup]
  exact saveJobList_jobs_ext ts cid _ sg.jobs _

theorem mem_saveSearchGroup_jobs (ts : String) (cid : Nat) (sg : SearchGroup) (db : SqliteDB)
    (k : String) :
    k ∈ (saveSearchGroup ts cid sg db).jobs.map Prod.fst
      ↔ k ∈ db.jobs.map Prod.fst ∨ k ∈ sg.jobs.map JobPosting.jobID := by
  simp only [saveSearchGroup]
  rw [mem_saveJobList_jobs]

theorem saveSearchGroup_jobs_nodup (ts : String) (cid : Nat) (sg : SearchGroup) (db : SqliteDB)
    (h : (db.jobs.map Prod.fst).Nodup) :
    ((saveSearchGroup ts cid sg db).jobs.map Prod.fst).Nodup := by
  simp only [saveSearchGroup]
  exact saveJobList_jobs_nodup ts cid _ sg.jobs _ h

theorem saveSearchGroup_jobs_of_mem (ts : String) (cid : Nat) (sg : SearchGroup) (db : SqliteDB)
    (h : ∀ i ∈ sg.jobs.map JobPosting.jobID, i ∈ db.jobs.map Prod.fst) :
    (saveSearchGroup ts cid sg db).jobs = db.jobs := by
  simp only [saveSearchGroup]
  exact saveJobList_jobs_of_mem ts cid _ sg.jobs _ h

@[simp] theorem saveSearchGroupList_categories (ts : String) (cid : Nat)
    (sgs : List SearchGroup) :
    ∀ db : SqliteDB, (saveSearchGroupList ts cid sgs db).categories = db.categories := by
  induction sgs with
  | nil => intro db; rfl
  | cons sg sgs ih => intro db; simp [saveSearchGroupList, ih]

theorem saveSearchGroupList_searches_ext (ts : String) (cid : Nat) (sgs : List SearchGroup) :
    ∀ db : SqliteDB, ∃ e, (saveSearchGroupList ts cid sgs db).searches = db.searches ++ e := by
  induction sgs with
  | nil => intro db; exact ⟨[], by simp [saveSearchGroupList]⟩
  | cons sg sgs ih =>
    intro db
    obtain ⟨e1, he1⟩ := upsertName_fst_append db.searches sg.searchTerm
    obtain ⟨e2, he2⟩ := ih (saveSearchGroup ts cid sg db)
    refine ⟨e1 ++ e2, ?_⟩
    simp only [saveSearchGroupList]
    rw [he2, saveSearchGroup_searches, he1, List.append_assoc]

theorem mem_saveSearchGroupList_searches (ts : String) (cid : Nat) (sgs : List SearchGroup) :
    ∀ (db : SqliteDB) (m : String),
    m ∈ (saveSearchGroupList ts cid sgs db).searches
      ↔ m ∈ db.searches ∨ ∃ sg ∈ sgs, sg.searchTerm = m := by
  induction sgs with
  | nil => intro db m; simp [saveSearchGroupList]
  | cons sg sgs ih =>
    intro db m
    simp only [saveSearchGroupList]
    rw [ih, saveSearchGroup_searches, mem_upsertName_iff]
    constructor
    · rintro ((h | rfl) | ⟨x, hx, rfl⟩)
      · exact Or.inl h
      · exact Or.inr ⟨sg, List.mem_cons_self _ _, rfl⟩
      · exact Or.inr ⟨x, List.mem_cons_of_mem _ hx, rfl⟩
    · rintro (h | ⟨x, hx, rfl⟩)
      · exact Or.inl (Or.inl h)
      · rcases List.mem_cons.mp hx with rfl | hx'
        · exact Or.inl (Or.inr rfl)
        · exact Or.inr ⟨x, hx', rfl⟩

theorem saveSearchGroupList_searches_nodup (ts : String) (cid : Nat) (sgs : List SearchGroup) :
    ∀ db : SqliteDB, db.searches.Nodup →
    (saveSearchGroupList ts cid sgs db).searches.Nodup := by
  induction sgs with
  | nil => intro db h; simpa [saveSearchGroupList] using h
  | cons sg sgs ih =>
    intro db h
    simp only [saveSearchGroupList]
    apply ih
    rw [saveSearchGroup_searches]
    exact upsertName_nodup _ _ h

theorem saveSearchGroupList_sj_lookup (ts : String) (cid : Nat) (sgs : List SearchGroup) :
    ∀ (db : SqliteDB) (k : Nat × String),
    lookupRow (saveSearchGroupList ts cid sgs db).searchesJobs k
      = if touchesSG ((saveSearchGroupList ts cid sgs db).searches) sgs k
        then applyTouch ts (lookupRow db.searchesJobs k)
        else lookupRow db.searchesJobs k := by
  induction sgs with
  | nil => intro db k; simp [saveSearchGroupList, touchesSG]
  | cons sg sgs ih =>
    intro db k
    simp only [saveSearchGroupList]
    rw [ih, saveSearchGroup_sj_lookup]
    have hsid : idOf? ((saveSearchGroup ts cid sg db).searches) sg.searchTerm
        = some ((upsertName db.searches sg.searchTerm).2) := by
      rw [saveSearchGroup_searches]
      exact idOf?_upsertName _ _
    obtain ⟨e, he⟩ := saveSearchGroupList_searches_ext ts cid sgs (saveSearchGroup ts cid sg db)
    have hsid' :
        idOf? ((saveSearchGroupList ts cid sgs (saveSearchGroup ts cid sg db)).searches)
            sg.searchTerm
          = some ((upsertName db.searches sg.searchTerm).2) := by
      rw [he, idOf?_append_of_isSome _ _ _ (by rw [hsid]; rfl)]
      exact hsid
    have hcond :
        touchesSG ((saveSearchGroupList ts cid sgs (saveSearchGroup ts cid sg db)).searches)
            (sg :: sgs) k
          ↔ ((k.1 = (upsertName db.searches sg.searchTerm).2
                ∧ k.2 ∈ sg.jobs.map JobPosting.jobID)
              ∨ touchesSG
                  ((saveSearchGroupList ts cid sgs (saveSearchGroup ts cid sg db)).searches)
                  sgs k) := by
      unfold touchesSG
      constructor
      · rintro ⟨x, hx, hxi, hxm⟩
        rcases List.mem_cons.mp hx with rfl | hx'
        · left
          have h12 := hsid'.symm.trans hxi
          exact ⟨(Option.some.inj h12).symm, hxm⟩
        · exact Or.inr ⟨x, hx', hxi, hxm⟩
      · rintro (⟨h1, h2⟩ | ⟨x, hx, hxi, hxm⟩)
        · exact ⟨sg, List.mem_cons_self _ _, by rw [hsid', h1], h2⟩
        · exact ⟨x, List.mem_cons_of_mem _ hx, hxi, hxm⟩
    by_cases hh : k.1 = (upsertName db.searches sg.searchTerm).2
        ∧ k.2 ∈ sg.jobs.map JobPosting.jobID
    · by_cases ht : touchesSG
          ((saveSearchGroupList ts cid sgs (saveSearchGroup ts cid sg db)).searches) sgs k
      · rw [if_pos ht, if_pos hh, if_pos (hcond.mpr (Or.inl hh)), applyTouch_idem]
      · rw [if_neg ht, if_pos hh, if_pos (hcond.mpr (Or.inl hh))]
    · by_cases ht : touchesSG
          ((saveSearchGroupList ts cid sgs (saveSearchGroup ts cid sg db)).searches) sgs k
      · rw [if_pos ht, if_neg hh, if_pos (hcond.mpr (Or.inr ht))]
      · rw [if_neg ht, if_neg hh, if_neg (fun hc => ((hcond.mp hc).elim hh ht))]

theorem mem_saveSearchGroupList_sj_keys (ts : String) (cid : Nat) (sgs : List SearchGroup) :
    ∀ (db : SqliteDB) (k : Nat × String),
    k ∈ (saveSearchGroupList ts cid sgs db).searchesJobs.map Prod.fst
      ↔ k ∈ db.searchesJobs.map Prod.fst
        ∨ touchesSG ((saveSearchGroupList ts cid sgs db).searches) sgs k := by
  induction sgs with
  | nil => intro db k; simp [saveSearchGroupList, touchesSG]
  | cons sg sgs ih =>
    intro db k
    simp only [saveSearchGroupList]
    rw [ih, saveSearchGroup_sj_keys_mem]
    have hsid : idOf? ((saveSearchGroup ts cid sg db).searches) sg.searchTerm
        = some ((upsertName db.searches sg.searchTerm).2) := by
      rw [saveSearchGroup_searches]
      exact idOf?_upsertName _ _
    obtain ⟨e, he⟩ := saveSearchGroupList_searches_ext ts cid sgs (saveSearchGroup ts cid sg db)
    have hsid' :
        idOf? ((saveSearchGroupList ts cid sgs (saveSearchGroup ts cid sg db)).searches)
            sg.searchTerm
          = some ((upsertName db.searches sg.searchTerm).2) := by
      rw [he, idOf?_append_of_isSome _ _ _ (by rw [hsid]; rfl)]
      exact hsid
    have hcond :
        touchesSG ((saveSearchGroupList ts cid sgs (saveSearchGroup ts cid sg db)).searches)
            (sg :: sgs) k
          ↔ ((k.1 = (upsertName db.searches sg.searchTerm).2
                ∧ k.2 ∈ sg.jobs.map JobPosting.jobID)
              ∨ touchesSG
                  ((saveSearchGroupList ts cid sgs (saveSearchGroup ts cid sg db)).searches)
                  sgs k) := by
      unfold touchesSG
      constructor
      · rintro ⟨x, hx, hxi, hxm⟩
        rcases List.mem_cons.mp hx with rfl | hx'
        · left
          have h12 := hsid'.symm.trans hxi
          exact ⟨(Option.some.inj h12).symm, hxm⟩
        · exact Or.inr ⟨x, hx', hxi, hxm⟩
      · rintro (⟨h1, h2⟩ | ⟨x, hx, hxi, hxm⟩)
        · exact ⟨sg, List.mem_cons_self _ _, by rw [hsid', h1], h2⟩
        · exact ⟨x, List.mem_cons_of_mem _ hx, hxi, hxm⟩
    rw [hcond]
    tauto

theorem saveSearchGroupList_sj_keys_ext (ts : String) (cid : Nat) (sgs : List SearchGroup) :
    ∀ db : SqliteDB, ∃ e, (saveSearchGroupList ts cid sgs db).searchesJobs.map Prod.fst
      = db.searchesJobs.map Prod.fst ++ e := by
  induction sgs with
  | nil => intro db; exact ⟨[], by simp [saveSearchGroupList]⟩
  | cons sg sgs ih =>
    intro db
    obtain ⟨e1, he1⟩ := saveSearchGroup_sj_keys_ext ts cid sg db
    obtain ⟨e2, he2⟩ := ih (saveSearchGroup ts cid sg db)
    refine ⟨e1 ++ e2, ?_⟩
    simp only [saveSearchGroupList]
    rw [he2, he1, List.append_assoc]

theorem saveSearchGroupList_sj_keys_nodup (ts : String) (cid : Nat) (sgs : List SearchGroup) :
    ∀ db : SqliteDB, (db.searchesJobs.map Prod.fst).Nodup →
    ((saveSearchGroupList ts cid sgs db).searchesJobs.map Prod.fst).Nodup := by
  induction sgs with
  | nil => intro db h; simpa [saveSearchGroupList] using h
  | cons sg sgs ih =>
    intro db h
    simp only [saveSearchGroupList]
    exact ih _ (saveSearchGroup_sj_keys_nodup ts cid sg db h)

theorem saveSearchGroupList_jobs_ext (ts : String) (cid : Nat) (sgs : List SearchGroup) :
    ∀ db : SqliteDB, ∃ e, (saveSearchGroupList ts cid sgs db).jobs = db.jobs ++ e := by
  induction sgs with
  | nil => intro db; exact ⟨[], by simp [saveSearchGroupList]⟩
  | cons sg sgs ih =>
    intro db
    obtain ⟨e1, he1⟩ := saveSearchGroup_jobs_ext ts cid sg db
    obtain ⟨e2, he2⟩ := ih (saveSearchGroup ts cid sg db)
    refine ⟨e1 ++ e2, ?_⟩
    simp only [saveSearchGroupList]
    rw [he2, he1, List.append_assoc]

theorem mem_saveSearchGroupList_jobs (ts : String) (cid : Nat) (sgs : List SearchGroup) :
    ∀ (db : SqliteDB) (k : String),
    k ∈ (saveSearchGroupList ts cid sgs db).jobs.map Prod.fst
      ↔ k ∈ db.jobs.map Prod.fst
        ∨ ∃ sg ∈ sgs, k ∈ sg.jobs.map JobPosting.jobID := by
  induction sgs with
  | nil => intro db k; simp [saveSearchGroupList]
  | cons sg sgs ih =>
    intro db k
    simp only [saveSearchGroupList]
    rw [ih, mem_saveSearchGroup_jobs]
    constructor
    · rintro ((h | h) | ⟨x, hx, hk⟩)
      · exact Or.inl h
      · exact Or.inr ⟨sg, List.mem_cons_self _ _, h⟩
      · exact Or.inr ⟨x, List.mem_cons_of_mem _ hx, hk⟩
    · rintro (h | ⟨x, hx, hk⟩)
      · exact Or.inl (Or.inl h)
      · rcases List.mem_cons.mp hx with rfl | hx'
        · exact Or.inl (Or.inr hk)
        · exact Or.inr ⟨x, hx', hk⟩

theorem saveSearchGroupList_jobs_nodup (ts : String) (cid : Nat) (sgs : List SearchGroup) :
    ∀ db : SqliteDB, (db.jobs.map Prod.fst).Nodup →
    ((saveSearchGroupList ts cid sgs db).jobs.map Prod.fst).Nodup := by
  induction sgs with
  | nil => intro db h; simpa [saveSearchGroupList] using h
  | cons sg sgs ih =>
    intro db h
    simp only [saveSearchGroupList]
    exact ih _ (saveSearchGroup_jobs_nodup ts cid sg db h)

theorem saveSearchGroupList_jobs_of_mem (ts : String) (cid : Nat) (sgs : List SearchGroup) :
    ∀ db : SqliteDB,
    (∀ sg ∈ sgs, ∀ i ∈ sg.jobs.map JobPosting.jobID, i ∈ db.jobs.map Prod.fst) →
    (saveSearchGroupList ts cid sgs db).jobs = db.jobs := by
  induction sgs with
  | nil => intro db _; rfl
  | cons sg sgs ih =>
    intro db h
    have hsg : (saveSearchGroup ts cid sg db).jobs = db.jobs :=
      saveSearchGroup_jobs_of_mem ts cid sg db (h sg (List.mem_cons_self _ _))
    simp only [saveSearchGroupList]
    rw [ih (saveSearchGroup ts cid sg db)
      (by rw [hsg]; exact fun x hx => h x (List.mem_cons_of_mem _ hx)), hsg]

/-! ## Effect of one category group and of the whole run (`saveAll`) -/

theorem saveCategoryGroup_searches_ext (ts : String) (g : JobCategoryGroup) (db : SqliteDB) :
    ∃ e, (saveCategoryGroup ts g db).searches = db.searches ++ e := by
  simp only [saveCategoryGroup]
  exact saveSearchGroupList_searches_ext ts _ g.searches _

theorem mem_saveCategoryGroup_searches (ts : String) (g : JobCategoryGroup) (db : SqliteDB)
    (m : String) :
    m ∈ (saveCategoryGroup ts g db).searches
      ↔ m ∈ db.searches ∨ ∃ sg ∈ g.searches, sg.searchTerm = m := by
  simp only [saveCategoryGroup]
  rw [mem_saveSearchGroupList_searches]

theorem saveCategoryGroup_searches_nodup (ts : String) (g : JobCategoryGroup) (db : SqliteDB)
    (h : db.searches.Nodup) : (saveCategoryGroup ts g db).searches.Nodup := by
  simp only [saveCategoryGroup]
  exact saveSearchGroupList_searches_nodup ts _ g.searches _ h

theorem saveCategoryGroup_sj_lookup (ts : String) (g : JobCategoryGroup) (db : SqliteDB)
    (k : Nat × String) :
    lookupRow (saveCategoryGroup ts g db).searchesJobs k
      = if touchesSG ((saveCategoryGroup ts g db).searches) g.searches k
        then applyTouch ts (lookupRow db.searchesJobs k)
        else lookupRow db.searchesJobs k := by
  simp only [saveCategoryGroup]
  rw [saveSearchGroupList_sj_lookup]

theorem mem_saveCategoryGroup_sj_keys (ts : String) (g : JobCategoryGroup) (db : SqliteDB)
    (k : Nat × String) :
    k ∈ (saveCategoryGroup ts g db).searchesJobs.map Prod.fst
      ↔ k ∈ db.searchesJobs.map Prod.fst
        ∨ touchesSG ((saveCategoryGroup ts g db).searches) g.searches k := by
  simp only [saveCategoryGroup]
  rw [mem_saveSearchGroupList_sj_keys]

theorem saveCategoryGroup_sj_keys_ext (ts : String) (g : JobCategoryGroup) (db : SqliteDB) :
    ∃ e, (saveCategoryGroup ts g db).searchesJobs.map Prod.fst
      = db.searchesJobs.map Prod.fst ++ e := by
  simp only [saveCategoryGroup]
  exact saveSearchGroupList_sj_keys_ext ts _ g.searches _

theorem saveCategoryGroup_sj_keys_nodup (ts : String) (g : JobCategoryGroup) (db : SqliteDB)
    (h : (db.searchesJobs.map Prod.fst).Nodup) :
    ((saveCategoryGroup ts g db).searchesJobs.map Prod.fst).Nodup := by
  simp only [saveCategoryGroup]
  exact saveSearchGroupList_sj_keys_nodup ts _ g.searches _ h

theorem saveCategoryGroup_jobs_ext (ts : String) (g : JobCategoryGroup) (db : SqliteDB) :
    ∃ e, (saveCategoryGroup ts g db).jobs = db.jobs ++ e := by
  simp only [saveCategoryGroup]
  exact saveSearchGroupList_jobs_ext ts _ g.searches _

theorem mem_saveCategoryGroup_jobs (ts : String) (g : JobCategoryGroup) (db : SqliteDB)
    (k : String) :
    k ∈ (saveCategoryGroup ts g db).jobs.map Prod.fst
      ↔ k ∈ db.jobs.map Prod.fst ∨ ∃ sg ∈ g.searches, k ∈ sg.jobs.map JobPosting.jobID := by
  simp only [saveCategoryGroup]
  rw [mem_saveSearchGroupList_jobs]

theorem saveCategoryGroup_jobs_nodup (ts : String) (g : JobCategoryGroup) (db : SqliteDB)
    (h : (db.jobs.map Prod.fst).Nodup) :
    ((saveCategoryGroup ts g db).jobs.map Prod.fst).Nodup := by
  simp only [saveCategoryGroup]
  exact saveSearchGroupList_jobs_nodup ts _ g.searches _ h

theorem saveCategoryGroup_jobs_of_mem (ts : String) (g : JobCategoryGroup) (db : SqliteDB)
    (h : ∀ sg ∈ g.searches, ∀ i ∈ sg.jobs.map JobPosting.jobID, i ∈ db.jobs.map Prod.fst) :
    (saveCategoryGroup ts g db).jobs = db.jobs := by
  simp only [saveCategoryGroup]
  exact saveSearchGroupList_jobs_of_mem ts _ g.searches _ h

theorem saveAll_searches_ext (ts : String) (groups : List JobCategoryGroup) :
    ∀ db : SqliteDB, ∃ e, (saveAll ts groups db).searches = db.searches ++ e := by
  induction groups with
  | nil => intro db; exact ⟨[], by simp [saveAll]⟩
  | cons g gs ih =>
    intro db
    obtain ⟨e1, he1⟩ := saveCategoryGroup_searches_ext ts g db
    obtain ⟨e2, he2⟩ := ih (saveCategoryGroup ts g db)
    refine ⟨e1 ++ e2, ?_⟩
    simp only [saveAll]
    rw [he2, he1, List.append_assoc]

theorem mem_saveAll_searches (ts : String) (groups : List JobCategoryGroup) :
    ∀ (db : SqliteDB) (m : String),
    m ∈ (saveAll ts groups db).searches
      ↔ m ∈ db.searches ∨ ∃ g ∈ groups, ∃ sg ∈ g.searches, sg.searchTerm = m := by
  induction groups with
  | nil => intro db m; simp [saveAll]
  | cons g gs ih =>
    intro db m
    simp only [saveAll]
    rw [ih, mem_saveCategoryGroup_searches]
    constructor
    · rintro ((h | ⟨x, hx, hm⟩) | ⟨y, hy, x, hx, hm⟩)
      · exact Or.inl h
      · exact Or.inr ⟨g, List.mem_cons_self _ _, x, hx, hm⟩
      · exact Or.inr ⟨y, List.mem_cons_of_mem _ hy, x, hx, hm⟩
    · rintro (h | ⟨y, hy, x, hx, hm⟩)
      · exact Or.inl (Or.inl h)
      · rcases List.mem_cons.mp hy with rfl | hy'
        · exact Or.inl (Or.inr ⟨x, hx, hm⟩)
        · exact Or.inr ⟨y, hy', x, hx, hm⟩

theorem saveAll_searches_nodup (ts : String) (groups : List JobCategoryGroup) :
    ∀ db : SqliteDB, db.searches.Nodup → (saveAll ts groups db).searches.Nodup := by
  induction groups with
  | nil => intro db h; simpa [saveAll] using h
  | cons g gs ih =>
    intro db h
    simp only [saveAll]
    exact ih _ (saveCategoryGroup_searches_nodup ts g db h)

theorem saveAll_sj_lookup (ts : String) (groups : List JobCategoryGroup) :
    ∀ (db : SqliteDB) (k : Nat × String),
    lookupRow (saveAll ts groups db).searchesJobs k
      = if touchesGroups ((saveAll ts groups db).searches) groups k
        then applyTouch ts (lookupRow db.searchesJobs k)
        else lookupRow db.searchesJobs k := by
  induction groups with
  | nil => intro db k; simp [saveAll, touchesGroups]
  | cons g gs ih =>
    intro db k
    simp only [saveAll]
    rw [ih, saveCategoryGroup_sj_lookup]
    obtain ⟨e, he⟩ := saveAll_searches_ext ts gs (saveCategoryGroup ts g db)
    have hterms : ∀ sg ∈ g.searches, sg.searchTerm ∈ (saveCategoryGroup ts g db).searches :=
      fun sg hsg => (mem_saveCategoryGroup_searches ts g db _).mpr (Or.inr ⟨sg, hsg, rfl⟩)
    have hhead :
        touchesSG ((saveAll ts gs (saveCategoryGroup ts g db)).searches) g.searches k
          ↔ touchesSG ((saveCategoryGroup ts g db).searches) g.searches k := by
      rw [he]
      exact touchesSG_append _ _ _ _ hterms
    have hcond :
        touchesGroups ((saveAll ts gs (saveCategoryGroup ts g db)).searches) (g :: gs) k
          ↔ (touchesSG ((saveCategoryGroup ts g db).searches) g.searches k
              ∨ touchesGroups ((saveAll ts gs (saveCategoryGroup ts g db)).searches) gs k) := by
      unfold touchesGroups
      constructor
      · rintro ⟨x, hx, hxt⟩
        rcases List.mem_cons.mp hx with rfl | hx'
        · exact Or.inl (hhead.mp hxt)
        · exact Or.inr ⟨x, hx', hxt⟩
      · rintro (h | ⟨x, hx, hxt⟩)
        · exact ⟨g, List.mem_cons_self _ _, hhead.mpr h⟩
        · exact ⟨x, List.mem_cons_of_mem _ hx, hxt⟩
    by_cases hh : touchesSG ((saveCategoryGroup ts g db).searches) g.searches k
    · by_cases ht : touchesGroups ((saveAll ts gs (saveCategoryGroup ts g db)).searches) gs k
      · rw [if_pos ht, if_pos hh, if_pos (hcond.mpr (Or.inl hh)), applyTouch_idem]
      · rw [if_neg ht, if_pos hh, if_pos (hcond.mpr (Or.inl hh))]
    · by_cases ht : touchesGroups ((saveAll ts gs (saveCategoryGroup ts g db)).searches) gs k
      · rw [if_pos ht, if_neg hh, if_pos (hcond.mpr (Or.inr ht))]
      · rw [if_neg ht, if_neg hh, if_neg (fun hc => ((hcond.mp hc).elim hh ht))]

theorem mem_saveAll_sj_keys (ts : String) (groups : List JobCategoryGroup) :
    ∀ (db : SqliteDB) (k : Nat × String),
    k ∈ (saveAll ts groups db).searchesJobs.map Prod.fst
      ↔ k ∈ db.searchesJobs.map Prod.fst
        ∨ touchesGroups ((saveAll ts groups db).searches) groups k := by
  induction groups with
  | nil => intro db k; simp [saveAll, touchesGroups]
  | cons g gs ih =>
    intro db k
    simp only [saveAll]
    rw [ih, mem_saveCategoryGroup_sj_keys]
    obtain ⟨e, he⟩ := saveAll_searches_ext ts gs (saveCategoryGroup ts g db)
    have hterms : ∀ sg ∈ g.searches, sg.searchTerm ∈ (saveCategoryGroup ts g db).searches :=
      fun sg hsg => (mem_saveCategoryGroup_searches ts g db _).mpr (Or.inr ⟨sg, hsg, rfl⟩)
    have hhead :
        touchesSG ((saveAll ts gs (saveCategoryGroup ts g db)).searches) g.searches k
          ↔ touchesSG ((saveCategoryGroup ts g db).searches) g.searches k := by
      rw [he]
      exact touchesSG_append _ _ _ _ hterms
    have hcond :
        touchesGroups ((saveAll ts gs (saveCategoryGroup ts g db)).searches) (g :: gs) k
          ↔ (touchesSG ((saveCategoryGroup ts g db).searches) g.searches k
              ∨ touchesGroups ((saveAll ts gs (saveCategoryGroup ts g db)).searches) gs k) := by
      unfold touchesGroups
      constructor
      · rintro ⟨x, hx, hxt⟩
        rcases List.mem_cons.mp hx with rfl | hx'
        · exact Or.inl (hhead.mp hxt)
        · exact Or.inr ⟨x, hx', hxt⟩
      · rintro (h | ⟨x, hx, hxt⟩)
        · exact ⟨g, List.mem_cons_self _ _, hhead.mpr h⟩
        · exact ⟨x, List.mem_cons_of_mem _ hx, hxt⟩
    rw [hcond]
    tauto

theorem saveAll_sj_keys_ext (ts : String) (groups : List JobCategoryGroup) :
    ∀ db : SqliteDB, ∃ e, (saveAll ts groups db).searchesJobs.map Prod.fst
      = db.searchesJobs.map Prod.fst ++ e := by
  induction groups with
  | nil => intro db; exact ⟨[], by simp [saveAll]⟩
  | cons g gs ih =>
    intro db
    obtain ⟨e1, he1⟩ := saveCategoryGroup_sj_keys_ext ts g db
    obtain ⟨e2, he2⟩ := ih (saveCategoryGroup ts g db)
    refine ⟨e1 ++ e2, ?_⟩
    simp only [saveAll]
    rw [he2, he1, List.append_assoc]

theorem saveAll_sj_keys_nodup (ts : String) (groups : List JobCategoryGroup) :
    ∀ db : SqliteDB, (db.searchesJobs.map Prod.fst).Nodup →
    ((saveAll ts groups db).searchesJobs.map Prod.fst).Nodup := by
  induction groups with
  | nil => intro db h; simpa [saveAll] using h
  | cons g gs ih =>
    intro db h
    simp only [saveAll]
    exact ih _ (saveCategoryGroup_sj_keys_nodup ts g db h)

theorem saveAll_jobs_ext (ts : String) (groups : List JobCategoryGroup) :
    ∀ db : SqliteDB, ∃ e, (saveAll ts groups db).jobs = db.jobs ++ e := by
  induction groups with
  | nil => intro db; exact ⟨[], by simp [saveAll]⟩
  | cons g gs ih =>
    intro db
    obtain ⟨e1, he1⟩ := saveCategoryGroup_jobs_ext ts g db
    obtain ⟨e2, he2⟩ := ih (saveCategoryGroup ts g db)
    refine ⟨e1 ++ e2, ?_⟩
    simp only [saveAll]
    rw [he2, he1, List.append_assoc]

theorem mem_saveAll_jobs (ts : String) (groups : List JobCategoryGroup) :
    ∀ (db : SqliteDB) (k : String),
    k ∈ (saveAll ts groups db).jobs.map Prod.fst
      ↔ k ∈ db.jobs.map Prod.fst
        ∨ ∃ g ∈ groups, ∃ sg ∈ g.searches, k ∈ sg.jobs.map JobPosting.jobID := by
  induction groups with
  | nil => intro db k; simp [saveAll]
  | cons g gs ih =>
    intro db k
    simp only [saveAll]
    rw [ih, mem_saveCategoryGroup_jobs]
    constructor
    · rintro ((h | ⟨x, hx, hk⟩) | ⟨y, hy, x, hx, hk⟩)
      · exact Or.inl h
      · exact Or.inr ⟨g, List.mem_cons_self _ _, x, hx, hk⟩
      · exact Or.inr ⟨y, List.mem_cons_of_mem _ hy, x, hx, hk⟩
    · rintro (h | ⟨y, hy, x, hx, hk⟩)
      · exact Or.inl (Or.inl h)
      · rcases List.mem_cons.mp hy with rfl | hy'
        · exact Or.inl (Or.inr ⟨x, hx, hk⟩)
        · exact Or.inr ⟨y, hy', x, hx, hk⟩

theorem saveAll_jobs_nodup (ts : String) (groups : List JobCategoryGroup) :
    ∀ db : SqliteDB, (db.jobs.map Prod.fst).Nodup →
    ((saveAll ts groups db).jobs.map Prod.fst).Nodup := by
  induction groups with
  | nil => intro db h; simpa [saveAll] using h
  | cons g gs ih =>
    intro db h
    simp only [saveAll]
    exact ih _ (saveCategoryGroup_jobs_nodup ts g db h)

theorem saveAll_jobs_of_mem (ts : String) (groups : List JobCategoryGroup) :
    ∀ db : SqliteDB,
    (∀ g ∈ groups, ∀ sg ∈ g.searches, ∀ i ∈ sg.jobs.map JobPosting.jobID,
        i ∈ db.jobs.map Prod.fst) →
    (saveAll ts groups db).jobs = db.jobs := by
  induction groups with
  | nil => intro db _; rfl
  | cons g gs ih =>
    intro db h
    have hg : (saveCategoryGroup ts g db).jobs = db.jobs :=
      saveCategoryGroup_jobs_of_mem ts g db (h g (List.mem_cons_self _ _))
    simp only [saveAll]
    rw [ih (saveCategoryGroup ts g db)
      (by rw [hg]; exact fun x hx => h x (List.mem_cons_of_mem _ hx)), hg]

theorem nodup_append_subset_eq_nil {α : Type} (l e : List α)
    (h : (l ++ e).Nodup) (hsub : ∀ x ∈ e, x ∈ l) : e = [] := by
  cases e with
  | nil => rfl
  | cons x e' =>
    have hx : x ∈ l := hsub x (List.mem_cons_self _ _)
    rw [List.nodup_append] at h
    exact absurd (List.mem_cons_self x e') (h.2.2 hx)

/-- Claim C2: persisting the same result groups twice (timestamps `ts1`,
then `ts2`) starting from an empty store leaves the job table unchanged by
the second run, with exactly one key-distinct row per discovered Identifier;
leaves exactly one association row per (search id, Identifier) pair, the
same pairs after both runs; every association row after the first run reads
`(ts1, ts1)` (a brand-new association sets both timestamps to the run's
timestamp), and after the second run reads `(ts1, ts2)` (`first_seen` never
changed, `last_seen` moved to the re-discovery's timestamp). -/
theorem saveJobsToSQLite_idempotent_runs (groups : List JobCategoryGroup) (ts1 ts2 : String) :
    (saveAll ts2 groups (saveAll ts1 groups emptyDB)).jobs
        = (saveAll ts1 groups emptyDB).jobs
    ∧ ((saveAll ts1 groups emptyDB).jobs.map Prod.fst).Nodup
    ∧ (∀ jid, jid ∈ (saveAll ts1 groups emptyDB).jobs.map Prod.fst
        ↔ ∃ g ∈ groups, ∃ sg ∈ g.searches, jid ∈ sg.jobs.map JobPosting.jobID)
    ∧ ((saveAll ts2 groups (saveAll ts1 groups emptyDB)).searchesJobs.map Prod.fst).Nodup
    ∧ (saveAll ts2 groups (saveAll ts1 groups emptyDB)).searchesJobs.map Prod.fst
        = (saveAll ts1 groups emptyDB).searchesJobs.map Prod.fst
    ∧ (∀ k, k ∈ (saveAll ts1 groups emptyDB).searchesJobs.map Prod.fst
        ↔ touchesGroups ((saveAll ts1 groups emptyDB).searches) groups k)
    ∧ (∀ k ∈ (saveAll ts1 groups emptyDB).searchesJobs.map Prod.fst,
        lookupRow (saveAll ts1 groups emptyDB).searchesJobs k = some (ts1, ts1))
    ∧ (∀ k ∈ (saveAll ts1 groups emptyDB).searchesJobs.map Prod.fst,
        lookupRow (saveAll ts2 groups (saveAll ts1 groups emptyDB)).searchesJobs k
          = some (ts1, ts2)) := by
  have hS1nodup : (saveAll ts1 groups emptyDB).searches.Nodup :=
    saveAll_searches_nodup ts1 groups emptyDB (by simp [emptyDB])
  have hS2nodup : (saveAll ts2 groups (saveAll ts1 groups emptyDB)).searches.Nodup :=
    saveAll_searches_nodup ts2 groups _ hS1nodup
  have hSmem1 : ∀ m, m ∈ (saveAll ts1 groups emptyDB).searches
      ↔ ∃ g ∈ groups, ∃ sg ∈ g.searches, sg.searchTerm = m := by
    intro m
    rw [mem_saveAll_searches]
    simp [emptyDB]
  have hSstable : (saveAll ts2 groups (saveAll ts1 groups emptyDB)).searches
      = (saveAll ts1 groups emptyDB).searches := by
    obtain ⟨e, he⟩ := saveAll_searches_ext ts2 groups (saveAll ts1 groups emptyDB)
    have hsub : ∀ x ∈ e, x ∈ (saveAll ts1 groups emptyDB).searches := by
      intro x hx
      have hxin : x ∈ (saveAll ts2 groups (saveAll ts1 groups emptyDB)).searches := by
        rw [he]
        exact List.mem_append_right _ hx
      rcases (mem_saveAll_searches ts2 groups _ x).mp hxin with h | h
      · exact h
      · exact (hSmem1 x).mpr h
    have he0 : e = [] := nodup_append_subset_eq_nil _ e (by rw [← he]; exact hS2nodup) hsub
    rw [he, he0, List.append_nil]
  have hJnodup1 : ((saveAll ts1 groups emptyDB).jobs.map Prod.fst).Nodup :=
    saveAll_jobs_nodup ts1 groups emptyDB (by simp [emptyDB])
  have hJmem1 : ∀ jid, jid ∈ (saveAll ts1 groups emptyDB).jobs.map Prod.fst
      ↔ ∃ g ∈ groups, ∃ sg ∈ g.searches, jid ∈ sg.jobs.map JobPosting.jobID := by
    intro jid
    rw [mem_saveAll_jobs]
    simp [emptyDB]
  have hJstable : (saveAll ts2 groups (saveAll ts1 groups emptyDB)).jobs
      = (saveAll ts1 groups emptyDB).jobs :=
    saveAll_jobs_of_mem ts2 groups _
      (fun g hg sg hsg i hi => (hJmem1 i).mpr ⟨g, hg, sg, hsg, hi⟩)
  have hKnodup1 : ((saveAll ts1 groups emptyDB).searchesJobs.map Prod.fst).Nodup :=
    saveAll_sj_keys_nodup ts1 groups emptyDB (by simp [emptyDB])
  have hKnodup2 :
      ((saveAll ts2 groups (saveAll ts1 groups emptyDB)).searchesJobs.map Prod.fst).Nodup :=
    saveAll_sj_keys_nodup ts2 groups _ hKnodup1
  have hT1 : ∀ k, k ∈ (saveAll ts1 groups emptyDB).searchesJobs.map Prod.fst
      ↔ touchesGroups ((saveAll ts1 groups emptyDB).searches) groups k := by
    intro k
    rw [mem_saveAll_sj_keys]
    simp [emptyDB]
  have hKstable : (saveAll ts2 groups (saveAll ts1 groups emptyDB)).searchesJobs.map Prod.fst
      = (saveAll ts1 groups emptyDB).searchesJobs.map Prod.fst := by
    obtain ⟨e, he⟩ := saveAll_sj_keys_ext ts2 groups (saveAll ts1 groups emptyDB)
    have hsub : ∀ x ∈ e, x ∈ (saveAll ts1 groups emptyDB).searchesJobs.map Prod.fst := by
      intro x hx
      have hxin : x ∈ (saveAll ts2 groups
          (saveAll ts1 groups emptyDB)).searchesJobs.map Prod.fst := by
        rw [he]
        exact List.mem_append_right _ hx
      rcases (mem_saveAll_sj_keys ts2 groups _ x).mp hxin with h | h
      · exact h
      · refine (hT1 x).mpr ?_
        rwa [hSstable] at h
    have he0 : e = [] := nodup_append_subset_eq_nil _ e (by rw [← he]; exact hKnodup2) hsub
    rw [he, he0, List.append_nil]
  have hL1 : ∀ k ∈ (saveAll ts1 groups emptyDB).searchesJobs.map Prod.fst,
      lookupRow (saveAll ts1 groups emptyDB).searchesJobs k = some (ts1, ts1) := by
    intro k hk
    rw [saveAll_sj_lookup ts1 groups emptyDB k, if_pos ((hT1 k).mp hk)]
    rfl
  have hL2 : ∀ k ∈ (saveAll ts1 groups emptyDB).searchesJobs.map Prod.fst,
      lookupRow (saveAll ts2 groups (saveAll ts1 groups emptyDB)).searchesJobs k
        = some (ts1, ts2) := by
    intro k hk
    have htouch2 : touchesGroups
        ((saveAll ts2 groups (saveAll ts1 groups emptyDB)).searches) groups k := by
      rw [hSstable]
      exact (hT1 k).mp hk
    rw [saveAll_sj_lookup ts2 groups _ k, if_pos htouch2, hL1 k hk]
    rfl
  exact ⟨hJstable, hJnodup1, hJmem1, hKnodup2, hKstable, hT1, hL1, hL2⟩

/-- Witness for C2 at the concrete overlapping-search run: re-running the
overlap example with timestamp "t2" keeps the job rows and association keys
of the first run, and every association of the first run reads ("t1", "t1")
after run one and ("t1", "t2") after run two, shown at the pair
(search 1, job "A"). -/
theorem saveJobsToSQLite_idempotent_runs_witness :
    (saveAll "t2" [overlapGroup] (saveAll "t1" [overlapGroup] emptyDB)).jobs
        = (saveAll "t1" [overlapGroup] emptyDB).jobs
    ∧ lookupRow (saveAll "t1" [overlapGroup] emptyDB).searchesJobs (1, "A")
        = some ("t1", "t1")
    ∧ lookupRow (saveAll "t2" [overlapGroup] (saveAll "t1" [overlapGroup] emptyDB)).searchesJobs
        (1, "A") = some ("t1", "t2") :=
  ⟨(saveJobsToSQLite_idempotent_runs [overlapGroup] "t1" "t2").1,
   (saveJobsToSQLite_idempotent_runs [overlapGroup] "t1" "t2").2.2.2.2.2.2.1 (1, "A")
     (by decide),
   (saveJobsToSQLite_idempotent_runs [overlapGroup] "t1" "t2").2.2.2.2.2.2.2 (1, "A")
     (by decide)⟩

/-! ## C6: the transaction is all-or-nothing

`saveJobsToSQLite` wraps all inserts of one run in one transaction with
`defer tx.Rollback()` and early `return` on any write error, committing only
at the end.  The oracle says which write (counted in execution order:
category upsert, search upsert, then per job the job insert, job–category
insert, and search–job upsert, finally the commit) fails.  On failure the
deferred rollback leaves the committed store untouched and the error is
returned. -/

def saveJobListExc (oracle : Nat → Bool) (ts : String) (cid sid : Nat) :
    List JobPosting → SqliteDB × Nat → Except Nat (SqliteDB × Nat)
  | [], s => .ok s
  | j :: js, (db, n) =>
    if oracle n then .error n
    else if oracle (n + 1) then .error (n + 1)
    else if oracle (n + 2) then .error (n + 2)
    else saveJobListExc oracle ts cid sid js
        (upsertSearchJob (insertJobCategoryOrIgnore (insertJobOrIgnore db j) j.jobID cid)
          sid j.jobID ts, n + 3)

def saveSearchGroupListExc (oracle : Nat → Bool) (ts : String) (cid : Nat) :
    List SearchGroup → SqliteDB × Nat → Except Nat (SqliteDB × Nat)
  | [], s => .ok s
  | sg :: sgs, (db, n) =>
    if oracle n then .error n
    else
      match saveJobListExc oracle ts cid (upsertName db.searches sg.searchTerm).2 sg.jobs
          ({ db with searches := (upsertName db.searches sg.searchTerm).1 }, n + 1) with
      | .error m => .error m
      | .ok s' => saveSearchGroupListExc oracle ts cid sgs s'

def saveAllExc (oracle : Nat → Bool) (ts : String) :
    List JobCategoryGroup → SqliteDB × Nat → Except Nat (SqliteDB × Nat)
  | [], s => .ok s
  | g :: gs, (db, n) =>
    if oracle n then .error n
    else
      match saveSearchGroupListExc oracle ts (upsertName db.categories g.category).2 g.searches
          ({ db with categories := (upsertName db.categories g.category).1 }, n + 1) with
      | .error m => .error m
      | .ok s' => saveAllExc oracle ts gs s'

/-- `saveJobsToSQLite`: run the insert loop inside the transaction; an error
anywhere (early `return`) triggers the deferred rollback, leaving the
committed state `db`; otherwise the commit (which may itself fail, also
rolling back) publishes the new state.  Returns the committed state and the
index of the failed write, if any. -/
def saveJobsToSQLite (oracle : Nat → Bool) (ts : String) (groups : List JobCategoryGroup)
    (db : SqliteDB) : SqliteDB × Option Nat :=
  match saveAllExc oracle ts groups (db, 0) with
  | .error n => (db, some n)
  | .ok (db', n) => if oracle n then (db, some n) else (db', none)

theorem saveJobListExc_ok (oracle : Nat → Bool) (ts : String) (cid sid : Nat)
    (js : List JobPosting) :
    ∀ (db : SqliteDB) (n : Nat) (db' : SqliteDB) (n' : Nat),
    saveJobListExc oracle ts cid sid js (db, n) = .ok (db', n') →
    db' = saveJobList ts cid sid js db := by
  induction js with
  | nil =>
    intro db n db' n' h
    simp only [saveJobListExc, Except.ok.injEq, Prod.mk.injEq] at h
    simpa [saveJobList] using h.1.symm
  | cons j js ih =>
    intro db n db' n' h
    simp only [saveJobListExc] at h
    split at h
    · cases h
    · split at h
      · cases h
      · split at h
        · cases h
        · simp only [saveJobList, saveJob]
          exact ih _ _ _ _ h

theorem saveJobListExc_err (oracle : Nat → Bool) (ts : String) (cid sid : Nat)
    (js : List JobPosting) :
    ∀ (db : SqliteDB) (n m : Nat),
    saveJobListExc oracle ts cid sid js (db, n) = .error m → oracle m = true := by
  induction js with
  | nil => intro db n m h; cases h
  | cons j js ih =>
    intro db n m h
    simp only [saveJobListExc] at h
    split at h
    · cases h
      assumption
    · split at h
      · cases h
        assumption
      · split at h
        · cases h
          assumption
        · exact ih _ _ _ h

theorem saveSearchGroupListExc_ok (oracle : Nat → Bool) (ts : String) (cid : Nat)
    (sgs : List SearchGroup) :
    ∀ (db : SqliteDB) (n : Nat) (db' : SqliteDB) (n' : Nat),
    saveSearchGroupListExc oracle ts cid sgs (db, n) = .ok (db', n') →
    db' = saveSearchGroupList ts cid sgs db := by
  induction sgs with
  | nil =>
    intro db n db' n' h
    simp only [saveSearchGroupListExc, Except.ok.injEq, Prod.mk.injEq] at h
    simpa [saveSearchGroupList] using h.1.symm
  | cons sg sgs ih =>
    intro db n db' n' h
    simp only [saveSearchGroupListExc] at h
    split at h
    · cases h
    · split at h
      · cases h
      · rename_i s' hs'
        obtain ⟨db1, n1⟩ := s'
        have h1 := saveJobListExc_ok oracle ts cid _ sg.jobs _ _ _ _ hs'
        simp only [saveSearchGroupList, saveSearchGroup]
        rw [← h1]
        exact ih _ _ _ _ h

theorem saveSearchGroupListExc_err (oracle : Nat → Bool) (ts : String) (cid : Nat)
    (sgs : List SearchGroup) :
    ∀ (db : SqliteDB) (n m : Nat),
    saveSearchGroupListExc oracle ts cid sgs (db, n) = .error m → oracle m = true := by
  induction sgs with
  | nil => intro db n m h; cases h
  | cons sg sgs ih =>
    intro db n m h
    simp only [saveSearchGroupListExc] at h
    split at h
    · cases h
      assumption
    · split at h
      · rename_i hs'
        cases h
        exact saveJobListExc_err oracle ts cid _ sg.jobs _ _ _ hs'
      · rename_i s' hs'
        obtain ⟨db1, n1⟩ := s'
        exact ih _ _ _ h

theorem saveAllExc_ok (oracle : Nat → Bool) (ts : String) (gs : List JobCategoryGroup) :
    ∀ (db : SqliteDB) (n : Nat) (db' : SqliteDB) (n' : Nat),
    saveAllExc oracle ts gs (db, n) = .ok (db', n') → db' = saveAll ts gs db := by
  induction gs with
  | nil =>
    intro db n db' n' h
    simp only [saveAllExc, Except.ok.injEq, Prod.mk.injEq] at h
    simpa [saveAll] using h.1.symm
  | cons g gs ih =>
    intro db n db' n' h
    simp only [saveAllExc] at h
    split at h
    · cases h
    · split at h
      · cases h
      · rename_i s' hs'
        obtain ⟨db1, n1⟩ := s'
        have h1 := saveSearchGroupListExc_ok oracle ts _ g.searches _ _ _ _ hs'
        simp only [saveAll, saveCategoryGroup]
        rw [← h1]
        exact ih _ _ _ _ h

theorem saveAllExc_err (oracle : Nat → Bool) (ts : String) (gs : List JobCategoryGroup) :
    ∀ (db : SqliteDB) (n m : Nat),
    saveAllExc oracle ts gs (db, n) = .error m → oracle m = true := by
  induction gs with
  | nil => intro db n m h; cases h
  | cons g gs ih =>
    intro db n m h
    simp only [saveAllExc] at h
    split at h
    · cases h
      assumption
    · split at h
      · rename_i hs'
        cases h
        exact saveSearchGroupListExc_err oracle ts _ g.searches _ _ _ hs'
      · rename_i s' hs'
        obtain ⟨db1, n1⟩ := s'
        exact ih _ _ _ h

/-- Claim C6: the relational persistence step is all-or-nothing.  If any
individual write of the run (category upsert, search upsert, job insert,
job–category insert, search–job upsert, or the final commit) fails, the
store is exactly as before the step and an error is returned; if no write
fails, the committed state is exactly the full run's inserts; and any
returned error indexes a write that really failed. -/
theorem saveJobsToSQLite_transactional (oracle : Nat → Bool) (ts : String)
    (groups : List JobCategoryGroup) (db : SqliteDB) :
    ((saveJobsToSQLite oracle ts groups db).2 ≠ none →
      (saveJobsToSQLite oracle ts groups db).1 = db)
    ∧ ((saveJobsToSQLite oracle ts groups db).2 = none →
      (saveJobsToSQLite oracle ts groups db).1 = saveAll ts groups db)
    ∧ (∀ m, (saveJobsToSQLite oracle ts groups db).2 = some m → oracle m = true) := by
  rcases hr : saveAllExc oracle ts groups (db, 0) with n | ⟨db', n⟩
  · have hres : saveJobsToSQLite oracle ts groups db = (db, some n) := by
      unfold saveJobsToSQLite
      rw [hr]
    rw [hres]
    refine ⟨fun _ => rfl, fun h => ?_, fun m hm => ?_⟩
    · simp at h
    · simp only [Option.some.injEq] at hm
      subst hm
      exact saveAllExc_err oracle ts groups _ _ _ hr
  · by_cases hc : oracle n
    · have hres : saveJobsToSQLite oracle ts groups db = (db, some n) := by
        unfold saveJobsToSQLite
        rw [hr]
        exact if_pos hc
      rw [hres]
      refine ⟨fun _ => rfl, fun h => ?_, fun m hm => ?_⟩
      · simp at h
      · simp only [Option.some.injEq] at hm
        subst hm
        exact hc
    · have hres : saveJobsToSQLite oracle ts groups db = (db', none) := by
        unfold saveJobsToSQLite
        rw [hr]
        exact if_neg hc
      rw [hres]
      exact ⟨fun h => absurd rfl h,
        fun _ => saveAllExc_ok oracle ts groups _ _ _ _ hr,
        fun m hm => by cases hm⟩

/-- Witness for C6: with the fourth write failing, persisting the overlap
example leaves the empty store empty; with no write failing, the committed
state is the full run. -/
theorem saveJobsToSQLite_transactional_witness :
    (saveJobsToSQLite (fun n => n == 3) "t1" [overlapGroup] emptyDB).1 = emptyDB
    ∧ (saveJobsToSQLite (fun _ => false) "t1" [overlapGroup] emptyDB).1
        = saveAll "t1" [overlapGroup] emptyDB :=
  ⟨(saveJobsToSQLite_transactional (fun n => n == 3) "t1" [overlapGroup] emptyDB).1
      (by decide),
   (saveJobsToSQLite_transactional (fun _ => false) "t1" [overlapGroup] emptyDB).2.1
      (by decide)⟩

/-! ## Fan-out coordinator (`main`)

One goroutine per (category, searchTerm) pair consumes the listing channel
and spawns one fetch per id; failed fetches are logged and skipped, and the
group is appended to its category's entry only when nonempty.  The listing
and detail endpoints are oracles; the concurrent appends are modelled in
configuration order (the properties proved below do not depend on the
interleaving). -/

abbrev JobID := String

/-- Outcome of one `jobPostings` call: an error (logged and dropped by the
coordinator) or the three projected fields. -/
inductive DetailOutcome where
  | err
  | ok (company description title : String)
  deriving DecidableEq, Repr

/-- `jobPostings` as seen by the coordinator: on success the record carries
the requested id together with the projected fields. -/
def fetchJob (detail : JobID → DetailOutcome) (jid : JobID) : Option JobPosting :=
  match detail jid with
  | .err => none
  | .ok c d t => some { jobID := jid, company := c, description := d, title := t }

/-- The inner fan-out for one search term: one fetch per discovered id,
keeping the successes. -/
def runSearch (detail : JobID → DetailOutcome) (jids : List JobID) : List JobPosting :=
  jids.filterMap (fetchJob detail)

/-- The `for i, jobGroup := range jobGroups` append: add `sg` to the first
group whose category matches, then `break`. -/
def appendToCategory (category : String) (sg : SearchGroup) :
    List JobCategoryGroup → List JobCategoryGroup
  | [] => []
  | g :: gs =>
    if g.category = category then { g with searches := g.searches ++ [sg] } :: gs
    else g :: appendToCategory category sg gs

/-- One (category, searchTerm) goroutine: discover, fetch, and append the
group only when `len(searchGroup.Jobs) > 0`. -/
def runPair (listings : String → List JobID) (detail : JobID → DetailOutcome)
    (groups : List JobCategoryGroup) (category searchTerm : String) :
    List JobCategoryGroup :=
  if 0 < (runSearch detail (listings searchTerm)).length then
    appendToCategory category ⟨searchTerm, runSearch detail (listings searchTerm)⟩ groups
  else groups

def runPairList (listings : String → List JobID) (detail : JobID → DetailOutcome) :
    List (String × String) → List JobCategoryGroup → List JobCategoryGroup
  | [], groups => groups
  | p :: ps, groups => runPairList listings detail ps (runPair listings detail groups p.1 p.2)

/-- All (category, searchTerm) pairs of the configuration, in order. -/
def categoryPairs (cats : List JobCategory) : List (String × String) :=
  (cats.map (fun c => c.searchTerms.map (fun t => (c.category, t)))).flatten

/-- `main`'s aggregation: one empty group per category, then every
(category, searchTerm) run. -/
def buildJobGroups (cats : List JobCategory) (listings : String → List JobID)
    (detail : JobID → DetailOutcome) : List JobCategoryGroup :=
  runPairList listings detail (categoryPairs cats)
    (cats.map (fun c => { category := c.category, searches := [] }))

theorem fetchJob_jobID (detail : JobID → DetailOutcome) (jid : JobID) (r : JobPosting)
    (h : fetchJob detail jid = some r) : r.jobID = jid := by
  unfold fetchJob at h
  cases hd : detail jid with
  | err => rw [hd] at h; cases h
  | ok c d t =>
    rw [hd] at h
    simp only [Option.some.injEq] at h
    rw [← h]

theorem mem_appendToCategory (category : String) (sg : SearchGroup) :
    ∀ (groups : List JobCategoryGroup) (g' : JobCategoryGroup) (sg' : SearchGroup),
    g' ∈ appendToCategory category sg groups → sg' ∈ g'.searches →
    (∃ g ∈ groups, sg' ∈ g.searches) ∨ sg' = sg := by
  intro groups
  induction groups with
  | nil => intro g' sg' h; cases h
  | cons g gs ih =>
    intro g' sg' hg' hsg'
    by_cases hcat : g.category = category
    · rw [appendToCategory, if_pos hcat] at hg'
      rcases List.mem_cons.mp hg' with rfl | hg''
      · simp only at hsg'
        rcases List.mem_append.mp hsg' with h | h
        · exact Or.inl ⟨g, List.mem_cons_self _ _, h⟩
        · exact Or.inr (List.mem_singleton.mp h)
      · exact Or.inl ⟨g', List.mem_cons_of_mem _ hg'', hsg'⟩
    · rw [appendToCategory, if_neg hcat] at hg'
      rcases List.mem_cons.mp hg' with rfl | hg''
      · exact Or.inl ⟨g', List.mem_cons_self _ _, hsg'⟩
      · rcases ih g' sg' hg'' hsg' with ⟨x, hx, hsx⟩ | h
        · exact Or.inl ⟨x, List.mem_cons_of_mem _ hx, hsx⟩
        · exact Or.inr h

/-- Any search group present after running a list of pairs was present
initially or is the (nonempty) result of one of the pairs. -/
theorem runPairList_origin (listings : String → List JobID) (detail : JobID → DetailOutcome) :
    ∀ (ps : List (String × String)) (groups : List JobCategoryGroup)
      (g' : JobCategoryGroup) (sg' : SearchGroup),
    g' ∈ runPairList listings detail ps groups → sg' ∈ g'.searches →
    (∃ g ∈ groups, sg' ∈ g.searches)
    ∨ ∃ p ∈ ps, sg' = ⟨p.2, runSearch detail (listings p.2)⟩
        ∧ 0 < (runSearch detail (listings p.2)).length := by
  intro ps
  induction ps with
  | nil =>
    intro groups g' sg' hg' hsg'
    exact Or.inl ⟨g', hg', hsg'⟩
  | cons p ps ih =>
    intro groups g' sg' hg' hsg'
    rcases ih _ g' sg' hg' hsg' with ⟨g, hg, hsg⟩ | ⟨q, hq, hq2⟩
    · unfold runPair at hg
      by_cases hlen : 0 < (runSearch detail (listings p.2)).length
      · rw [if_pos hlen] at hg
        rcases mem_appendToCategory p.1 _ groups g sg' hg hsg with ⟨x, hx, hsx⟩ | h
        · exact Or.inl ⟨x, hx, hsx⟩
        · exact Or.inr ⟨p, List.mem_cons_self _ _, h, hlen⟩
      · rw [if_neg hlen] at hg
        exact Or.inl ⟨g, hg, hsg⟩
    · exact Or.inr ⟨q, List.mem_cons_of_mem _ hq, hq2⟩

/-- Claim C10: a (category, searchTerm) run whose set of successfully
fetched records is empty appends no search group: no group of the built
tree carries that term, every group present is nonempty, and persisting the
tree stores no search row for that term. -/
theorem emptyRun_leaves_no_trace (cats : List JobCategory) (listings : String → List JobID)
    (detail : JobID → DetailOutcome) (ts t : String)
    (hempty : runSearch detail (listings t) = []) :
    (∀ g ∈ buildJobGroups cats listings detail, ∀ sg ∈ g.searches, sg.searchTerm ≠ t)
    ∧ (∀ g ∈ buildJobGroups cats listings detail, ∀ sg ∈ g.searches, sg.jobs ≠ [])
    ∧ t ∉ (saveAll ts (buildJobGroups cats listings detail) emptyDB).searches := by
  have horigin : ∀ g ∈ buildJobGroups cats listings detail, ∀ sg ∈ g.searches,
      ∃ p ∈ categoryPairs cats, sg = ⟨p.2, runSearch detail (listings p.2)⟩
        ∧ 0 < (runSearch detail (listings p.2)).length := by
    intro g hg sg hsg
    rcases runPairList_origin listings detail (categoryPairs cats) _ g sg hg hsg with
      ⟨x, hx, hsx⟩ | h
    · obtain ⟨c, hc, hxc⟩ := List.mem_map.mp hx
      rw [← hxc] at hsx
      cases hsx
    · exact h
  have hterm : ∀ g ∈ buildJobGroups cats listings detail, ∀ sg ∈ g.searches,
      sg.searchTerm ≠ t := by
    intro g hg sg hsg
    obtain ⟨p, _, hsgp, hlen⟩ := horigin g hg sg hsg
    rw [hsgp]
    intro hteq
    simp only at hteq
    rw [hteq, hempty] at hlen
    cases hlen
  refine ⟨hterm, ?_, ?_⟩
  · intro g hg sg hsg
    obtain ⟨p, _, hsgp, hlen⟩ := horigin g hg sg hsg
    rw [hsgp]
    intro hnil
    simp only at hnil
    rw [hnil] at hlen
    cases hlen
  · intro hmem
    rcases (mem_saveAll_searches ts _ emptyDB t).mp hmem with h | ⟨g, hg, sg, hsg, hst⟩
    · simp [emptyDB] at h
    · exact hterm g hg sg hsg hst

/-- Witness for C10 at a concrete configuration: the "security engineer"
run fetches nothing, so persisting the built tree leaves no
"security engineer" search row. -/
theorem emptyRun_leaves_no_trace_witness :
    "security engineer" ∉
      (saveAll "t1"
        (buildJobGroups getJobCategories
          (fun term => if term == "data scientist" then ["X1"] else [])
          (fun _ => .ok "c" "d" "ti"))
        emptyDB).searches :=
  (emptyRun_leaves_no_trace getJobCategories
      (fun term => if term == "data scientist" then ["X1"] else [])
      (fun _ => .ok "c" "d" "ti") "t1" "security engineer" (by decide)).2.2

/-- Claim C7: one failing detail fetch is isolated.  Against a detail oracle
that fails on `bad` but agrees elsewhere, the group built for a search is
exactly the group built from the sibling identifiers alone: the failed
identifier is omitted, every sibling success is kept, the sibling record
count is unchanged, and the persisted job table is that of the
sibling-only run. -/
theorem detailFailure_isolated (detail detail' : JobID → DetailOutcome) (bad : JobID)
    (jids : List JobID) (ts category term : String)
    (hbad : detail' bad = .err)
    (hagree : ∀ j, j ≠ bad → detail' j = detail j) :
    runSearch detail' jids = runSearch detail (jids.filter (fun j => j != bad))
    ∧ (∀ r ∈ runSearch detail' jids, r.jobID ≠ bad)
    ∧ (runSearch detail' jids).length
        = (runSearch detail (jids.filter (fun j => j != bad))).length
    ∧ (saveAll ts [⟨category, [⟨term, runSearch detail' jids⟩]⟩] emptyDB).jobs
        = (saveAll ts [⟨category,
            [⟨term, runSearch detail (jids.filter (fun j => j != bad))⟩]⟩] emptyDB).jobs := by
  have hmain : runSearch detail' jids = runSearch detail (jids.filter (fun j => j != bad)) := by
    induction jids with
    | nil => rfl
    | cons j js ih =>
      by_cases hj : j = bad
      · subst hj
        have hfetch : fetchJob detail' j = none := by simp [fetchJob, hbad]
        have hcond : ¬((j != j) = true) := by simp
        simp only [runSearch] at ih ⊢
        rw [List.filterMap_cons, hfetch, List.filter_cons, if_neg hcond]
        exact ih
      · have hfetch : fetchJob detail' j = fetchJob detail j := by
          simp [fetchJob, hagree j hj]
        have hcond : (j != bad) = true := by simpa using hj
        simp only [runSearch] at ih ⊢
        rw [List.filter_cons, if_pos hcond, List.filterMap_cons, List.filterMap_cons,
          hfetch, ih]
  refine ⟨hmain, ?_, by rw [hmain], by rw [hmain]⟩
  intro r hr
  obtain ⟨j, hj, hfj⟩ := List.mem_filterMap.mp hr
  rw [fetchJob_jobID detail' j r hfj]
  intro hjb
  subst hjb
  rw [fetchJob, hbad] at hfj
  cases hfj

/-- Witness for C7: ids A, B, C with B failing; the group keeps A and C
only, and the persisted table equals the sibling-only run's. -/
theorem detailFailure_isolated_witness :
    runSearch
        (fun j => if j == "B" then .err else .ok "c" "d" "ti")
        ["A", "B", "C"]
      = runSearch (fun _ => DetailOutcome.ok "c" "d" "ti")
          (["A", "B", "C"].filter (fun j => j != "B")) :=
  (detailFailure_isolated (fun _ => DetailOutcome.ok "c" "d" "ti")
      (fun j => if j == "B" then .err else .ok "c" "d" "ti") "B" ["A", "B", "C"]
      "t1" "cat" "term" (by decide)
      (fun j hj => by simp [hj])).1

/-! ## Flat sink (`saveJobsToFile`)

The JSON document produced by `json.NewEncoder(f).Encode(jobGroups)` for the
struct tags in the source, modelled at the byte (character) level, and the
file semantics of `os.OpenFile(path, os.O_RDWR|os.O_CREATE, 0600)`: the
existing content is NOT truncated, and the encoder writes from offset 0, so
bytes of a longer previous file beyond the new document's length remain. -/

def lbrace : Char := Char.ofNat 123

def rbrace : Char := Char.ofNat 125

def hexDigit (n : Nat) : Char :=
  if n < 10 then Char.ofNat (48 + n) else Char.ofNat (87 + n)

/-- Go `encoding/json` string escaping (HTML escaping on, the
`json.NewEncoder` default): quote, backslash, the short control escapes,
`\u00XX` for other control characters and for the HTML characters, and
` `/` `. -/
def escapeChar (c : Char) : List Char :=
  if c = '"' then ['\\', '"']
  else if c = '\\' then ['\\', '\\']
  else if c = '\n' then ['\\', 'n']
  else if c = '\r' then ['\\', 'r']
  else if c = '\t' then ['\\', 't']
  else if c = '<' ∨ c = '>' ∨ c = '&' ∨ c.toNat < 32 then
    ['\\', 'u', '0', '0', hexDigit (c.toNat / 16), hexDigit (c.toNat % 16)]
  else if c.toNat = 8232 ∨ c.toNat = 8233 then
    ['\\', 'u', '2', '0', '2', hexDigit (c.toNat % 16)]
  else [c]

def encodeString (s : String) : List Char :=
  '"' :: (s.data.map escapeChar).flatten ++ ['"']

def commaSep : List (List Char) → List Char
  | [] => []
  | [x] => x
  | x :: y :: xs => x ++ ',' :: commaSep (y :: xs)

def encodeArray (items : List (List Char)) : List Char :=
  '[' :: commaSep items ++ [']']

def encodeJobPosting (j : JobPosting) : List Char :=
  lbrace :: (encodeString "job_id" ++ ':' :: encodeString j.jobID
    ++ ',' :: encodeString "company" ++ ':' :: encodeString j.company
    ++ ',' :: encodeString "description" ++ ':' :: encodeString j.description
    ++ ',' :: encodeString "title" ++ ':' :: encodeString j.title) ++ [rbrace]

def encodeSearchGroup (sg : SearchGroup) : List Char :=
  lbrace :: (encodeString "search_term" ++ ':' :: encodeString sg.searchTerm
    ++ ',' :: encodeString "jobs" ++ ':' :: encodeArray (sg.jobs.map encodeJobPosting))
    ++ [rbrace]

def encodeCategoryGroup (g : JobCategoryGroup) : List Char :=
  lbrace :: (encodeString "category" ++ ':' :: encodeString g.category
    ++ ',' :: encodeString "searches" ++ ':' :: encodeArray (g.searches.map encodeSearchGroup))
    ++ [rbrace]

/-- `Encoder.Encode` writes the document followed by a newline. -/
def encodeJobGroups (groups : List JobCategoryGroup) : List Char :=
  encodeArray (groups.map encodeCategoryGroup) ++ ['\n']

/-- `saveJobsToFile`: open (without truncation) the previous content, if
any, and write the encoded document from offset 0.  The resulting file is
the new document followed by whatever part of the previous content extends
beyond it. -/
def saveJobsToFile (groups : List JobCategoryGroup) (prev : Option (List Char)) : List Char :=
  encodeJobGroups groups
    ++ (match prev with
        | none => []
        | some c => c).drop (encodeJobGroups groups).length

def smallRunGroups : List JobCategoryGroup := [{ category := "Security", searches := [] }]

/-- The file content left by an earlier, larger run. -/
def prevRunContent : List Char := encodeJobGroups [overlapGroup]

/-- Claim C3, what the code does at the failing input: a run whose snapshot
is shorter than the previous file's content leaves the file equal to the
new JSON document followed by the previous content's surviving tail — the
tail is nonempty, so the file is not the current run's serialization alone
(no `O_TRUNC`: the write is not a wholesale overwrite).  With no previous
file the result is exactly the snapshot. -/
theorem saveJobsToFile_keeps_stale_tail :
    saveJobsToFile smallRunGroups (some prevRunContent)
        = encodeJobGroups smallRunGroups
          ++ prevRunContent.drop (encodeJobGroups smallRunGroups).length
    ∧ prevRunContent.drop (encodeJobGroups smallRunGroups).length ≠ []
    ∧ saveJobsToFile smallRunGroups (some prevRunContent) ≠ encodeJobGroups smallRunGroups
    ∧ saveJobsToFile smallRunGroups none = encodeJobGroups smallRunGroups :=
  ⟨rfl, by decide, by decide, by decide⟩

end ArgJobs
